import Mathlib

/-!
Verification of the `basic-cookies` cookie-header scanning/parsing engine.

The development shallowly embeds the hand-written scanner revision of the
crate: the character-class predicates (`is_token_char`, `is_cookie_octet`),
the codepoint-indexed string (`IndexedString`), the cursor scanner
(`StringScanner`), the cookie parser (`UserAgentCookie.parse`) and the
emitter (`UserAgentCookie.emit_all`).

Strings are modelled as `List Char` (one element per Unicode codepoint);
the byte-level view of `IndexedString` is modelled separately with an
explicit UTF-8 encoder.  Fallible operations (out-of-bounds spans, which
panic in the source) are modelled with `Option`; the parser driver loop is
given explicit fuel, so that termination is a provable statement rather
than an assumption.
-/

namespace BasicCookies

/-- Mirror of `is_token_char` (user_agent_cookie.rs): the legal
cookie-name characters, given by the source's codepoint ranges. -/
def is_token_char (c : Char) : Bool :=
  let n := c.toNat
  n = 0x21 || (0x23 ≤ n && n ≤ 0x27) || n = 0x2a || n = 0x2b || n = 0x2d ||
    n = 0x2e || (0x30 ≤ n && n ≤ 0x39) || (0x41 ≤ n && n ≤ 0x5a) ||
    (0x5e ≤ n && n ≤ 0x7a) || n = 0x7c || n = 0x7e

/-- Mirror of `is_cookie_octet` (user_agent_cookie.rs): the legal
unquoted cookie-value characters — the token set plus selected punctuation. -/
def is_cookie_octet (c : Char) : Bool :=
  let n := c.toNat
  n = 0x21 || (0x23 ≤ n && n ≤ 0x27) || n = 0x2a || n = 0x2b || n = 0x2d ||
    n = 0x2e || (0x30 ≤ n && n ≤ 0x39) || (0x41 ≤ n && n ≤ 0x5a) ||
    (0x5e ≤ n && n ≤ 0x7a) || n = 0x7c || n = 0x7e ||
    n = 0x28 || n = 0x29 || n = 0x2f || n = 0x3a || n = 0x3c ||
    (0x3e ≤ n && n ≤ 0x40) || n = 0x5b || n = 0x5d || n = 0x7b || n = 0x7d

/-- Mirror of `is_str_all_tokens`. -/
def is_str_all_tokens (val : List Char) : Bool :=
  val.all is_token_char

/-- Mirror of `is_str_all_cookie_octets`. -/
def is_str_all_cookie_octets (val : List Char) : Bool :=
  val.all is_cookie_octet

/-- Scanner state (string_scanner.rs): the indexed string (codepoint view)
plus the cursor, a codepoint index. -/
structure StringScanner where
  s : List Char
  cursor : Nat
deriving DecidableEq

/-- Mirror of `ScanCharResult`; the `NonZeroUsize` payload is a `Nat`. -/
inductive ScanCharResult where
  | CharNotFound : ScanCharResult
  | CharFound : Nat → ScanCharResult
deriving DecidableEq

/-- Mirror of `ScanUntilCharResult`. -/
inductive ScanUntilCharResult where
  | CharFound : ScanUntilCharResult
  | EndOfStringReached : ScanUntilCharResult
deriving DecidableEq

/-- The `for` loop shared by `scan_until_char` and
`scan_until_char_or_whitespace`: walk the remaining codepoints, counting
until the stop predicate fires; report the count and whether it fired. -/
def scanLoop (stop : Char → Bool) : List Char → Nat × Bool
  | [] => (0, false)
  | c :: rest =>
    if stop c then (0, true)
    else
      let r := scanLoop stop rest
      (r.1 + 1, r.2)

/-- The `for` loop of `scan_whitespace_repeating`: length of the maximal
prefix of tab/space codepoints. -/
def wsLoop : List Char → Nat
  | [] => 0
  | c :: rest => if c = '\x09' || c = '\x20' then wsLoop rest + 1 else 0

def StringScanner.from_list (src : List Char) : StringScanner :=
  ⟨src, 0⟩

def StringScanner.is_at_end_of_string (sc : StringScanner) : Bool :=
  sc.cursor ≥ sc.s.length

/-- Mirror of `StringScanner::scan_char_once`: advance by one iff the
codepoint at the cursor exists and equals the argument. -/
def StringScanner.scan_char_once (sc : StringScanner) (char_to_scan : Char) :
    ScanCharResult × StringScanner :=
  if h : sc.cursor < sc.s.length then
    if sc.s.get ⟨sc.cursor, h⟩ = char_to_scan then
      (ScanCharResult.CharFound 1, ⟨sc.s, sc.cursor + 1⟩)
    else
      (ScanCharResult.CharNotFound, sc)
  else
    (ScanCharResult.CharNotFound, sc)

/-- Mirror of `StringScanner::scan_until_char`. -/
def StringScanner.scan_until_char (sc : StringScanner) (char_to_find : Char) :
    ScanUntilCharResult × StringScanner :=
  let r := scanLoop (fun c => c = char_to_find) (sc.s.drop sc.cursor)
  ((if r.2 then ScanUntilCharResult.CharFound
    else ScanUntilCharResult.EndOfStringReached), ⟨sc.s, sc.cursor + r.1⟩)

/-- Mirror of `StringScanner::scan_until_char_or_whitespace`. -/
def StringScanner.scan_until_char_or_whitespace (sc : StringScanner)
    (char_to_find : Char) : ScanUntilCharResult × StringScanner :=
  let r := scanLoop (fun c => c = char_to_find || c = '\x09' || c = '\x20')
    (sc.s.drop sc.cursor)
  ((if r.2 then ScanUntilCharResult.CharFound
    else ScanUntilCharResult.EndOfStringReached), ⟨sc.s, sc.cursor + r.1⟩)

/-- Mirror of `StringScanner::scan_whitespace_repeating`. -/
def StringScanner.scan_whitespace_repeating (sc : StringScanner) :
    ScanCharResult × StringScanner :=
  let n := wsLoop (sc.s.drop sc.cursor)
  if n > 0 then (ScanCharResult.CharFound n, ⟨sc.s, sc.cursor + n⟩)
  else (ScanCharResult.CharNotFound, sc)

/-- Mirror of `StringScanner::substring` (delegating to
`IndexedString::substring`): the codepoint span `[a, b)`.  `none` models
the out-of-bounds panic that the spec's internal-error variant guards. -/
def StringScanner.substring (sc : StringScanner) (a b : Nat) :
    Option (List Char) :=
  if a ≤ b ∧ b ≤ sc.s.length then some ((sc.s.take b).drop a) else none

/-- Mirror of `UserAgentCookie` — a parsed name/value pair. -/
structure UserAgentCookie where
  name : List Char
  value : List Char
deriving DecidableEq

/-- Mirror of `ParseNameResult`. -/
inductive ParseNameResult where
  | Name : List Char → ParseNameResult
  | Value : List Char → ParseNameResult
  | None : ParseNameResult
deriving DecidableEq

/-- Mirror of `UserAgentCookie::parse_name`.  `Option.none` models an
out-of-bounds span (never reachable, as proved below). -/
def parse_name (sc0 : StringScanner) :
    Option (ParseNameResult × StringScanner) :=
  let sc1 := (sc0.scan_whitespace_repeating).2
  if sc1.is_at_end_of_string then some (ParseNameResult.None, sc1)
  else
    let start_idx := sc1.cursor
    match sc1.scan_until_char '=' with
    | (ScanUntilCharResult.CharFound, sc2) =>
      match sc2.substring start_idx sc2.cursor with
      | some nm => some (ParseNameResult.Name nm, sc2)
      | none => none
    | (ScanUntilCharResult.EndOfStringReached, sc2) =>
      match sc2.substring start_idx sc2.cursor with
      | some v => some (ParseNameResult.Value v, sc2)
      | none => none

/-- Mirror of `UserAgentCookie::parse_value`.  The outer `Option` models
an out-of-bounds span; the inner `Option` is the source's return value
(`None` = no value present). -/
def parse_value (sc0 : StringScanner) :
    Option (Option (List Char) × StringScanner) :=
  let sc1 := (sc0.scan_char_once '=').2
  let q := sc1.scan_char_once '\x22'
  let starts_with_dquote :=
    match q.1 with
    | ScanCharResult.CharFound _ => true
    | _ => false
  let sc2 := q.2
  let start_idx := sc2.cursor
  match (if starts_with_dquote then sc2.scan_until_char '\x22'
         else sc2.scan_until_char_or_whitespace ';') with
  | (ScanUntilCharResult.CharFound, sc3) =>
    let end_idx := sc3.cursor
    let sc4 := if starts_with_dquote then (sc3.scan_char_once '\x22').2 else sc3
    let sc5 := (sc4.scan_char_once ';').2
    match sc5.substring start_idx end_idx with
    | some v => some (some v, sc5)
    | none => none
  | (ScanUntilCharResult.EndOfStringReached, sc3) =>
    if sc3.cursor > start_idx then
      match sc3.substring start_idx sc3.cursor with
      | some v => some (some v, sc3)
      | none => none
    else
      some (none, sc3)

/-- The driver loop of `UserAgentCookie::parse`, with explicit fuel.
`none` models either fuel exhaustion (the source loop not terminating) or
an out-of-bounds span inside `parse_name`/`parse_value`. -/
def parse_loop : Nat → StringScanner → List UserAgentCookie →
    Option (List UserAgentCookie)
  | 0, _, _ => none
  | fuel + 1, sc, acc =>
    match parse_name sc with
    | none => none
    | some (ParseNameResult.Name nm, sc1) =>
      match parse_value sc1 with
      | none => none
      | some (some v, sc2) => parse_loop fuel sc2 (acc ++ [⟨nm, v⟩])
      | some (none, _) => some (acc ++ [⟨nm, []⟩])
    | some (ParseNameResult.Value v, sc1) => parse_loop fuel sc1 (acc ++ [⟨[], v⟩])
    | some (ParseNameResult.None, _) => some acc

/-- Mirror of `UserAgentCookie::parse`.  The fuel `length + 1` is enough,
as proved below (`parse_total`). -/
def parse (input : List Char) : Option (List UserAgentCookie) :=
  parse_loop (input.length + 1) (StringScanner.from_list input) []

/-- Mirror of `EncodingErrorExpectedClass` (encoding_error.rs). -/
inductive EncodingErrorExpectedClass where
  | Token : EncodingErrorExpectedClass
  | CookieOctet : EncodingErrorExpectedClass
deriving DecidableEq

/-- Mirror of `EncodingError`: the offending string and the expected class. -/
structure EncodingError where
  value : List Char
  expected_class : EncodingErrorExpectedClass
deriving DecidableEq

/-- Mirror of `EmitCookieError` (emit_cookie_error.rs). -/
inductive EmitCookieError where
  | InternalError : EmitCookieError
  | EncodingErr : EncodingError → EmitCookieError
deriving DecidableEq

/-- The `for` loop of `UserAgentCookie::emit_all`, with the `is_first`
flag and the accumulated output made explicit.  Note: the source passes
`EncodingErrorExpectedClass::Token` in *both* failure branches. -/
def emit_all_loop : List UserAgentCookie → Bool → List Char →
    Except EmitCookieError (List Char)
  | [], _, result => Except.ok result
  | cookie :: rest, is_first, result =>
    let result := if is_first then result else result ++ [';', '\x20']
    if ¬ is_str_all_tokens cookie.name then
      Except.error (EmitCookieError.EncodingErr
        ⟨cookie.name, EncodingErrorExpectedClass.Token⟩)
    else if ¬ is_str_all_cookie_octets cookie.value then
      Except.error (EmitCookieError.EncodingErr
        ⟨cookie.value, EncodingErrorExpectedClass.Token⟩)
    else
      emit_all_loop rest false (result ++ cookie.name ++ '=' :: cookie.value)

/-- Mirror of `UserAgentCookie::emit_all`. -/
def emit_all (cookies : List UserAgentCookie) :
    Except EmitCookieError (List Char) :=
  emit_all_loop cookies true []

end BasicCookies

namespace BasicCookies

/-! ### Basic list facts used by the scanner lemmas -/

lemma drop_append_of_drop_eq {s a t : List Char} {i : Nat}
    (h : s.drop i = a ++ t) : s.drop (i + a.length) = t := by
  have : (s.drop i).drop a.length = t := by rw [h]; exact List.drop_left a t
  rwa [List.drop_drop] at this

lemma length_eq_of_drop_eq {s a : List Char} {i : Nat}
    (hi : i ≤ s.length) (h : s.drop i = a) : s.length = i + a.length := by
  have := List.length_drop i s
  rw [h] at this
  omega

lemma getElem?_of_drop_cons {s t : List Char} {i : Nat} {c : Char}
    (h : s.drop i = c :: t) : s[i]? = some c := by
  have h0 : (s.drop i)[0]? = some c := by rw [h]; simp
  rw [List.getElem?_drop] at h0
  simpa using h0

lemma lt_length_of_drop_cons {s t : List Char} {i : Nat} {c : Char}
    (h : s.drop i = c :: t) : i < s.length := by
  by_contra hlt
  rw [List.drop_eq_nil_iff.mpr (by omega)] at h
  exact List.noConfusion h

/-! ### `scanLoop` and `wsLoop` characterizations -/

lemma scanLoop_cons_stop {stop : Char → Bool} {c : Char} (t : List Char)
    (h : stop c = true) : scanLoop stop (c :: t) = (0, true) := by
  simp [scanLoop, h]

lemma scanLoop_append_no_stop {stop : Char → Bool} {a : List Char}
    (t : List Char) (h : ∀ x ∈ a, stop x = false) :
    scanLoop stop (a ++ t) = ((scanLoop stop t).1 + a.length, (scanLoop stop t).2) := by
  induction a with
  | nil => simp
  | cons c rest ih =>
    have hc : stop c = false := h c (by simp)
    have hrest : ∀ x ∈ rest, stop x = false := fun x hx => h x (by simp [hx])
    simp [scanLoop, hc, ih hrest]
    omega

lemma scanLoop_no_stop {stop : Char → Bool} {a : List Char}
    (h : ∀ x ∈ a, stop x = false) : scanLoop stop a = (a.length, false) := by
  have := scanLoop_append_no_stop (a := a) [] h
  simpa [scanLoop] using this

lemma scanLoop_fst_le (stop : Char → Bool) (l : List Char) :
    (scanLoop stop l).1 ≤ l.length := by
  induction l with
  | nil => simp [scanLoop]
  | cons c rest ih =>
    by_cases h : stop c <;> simp [scanLoop, h] <;> omega

lemma scanLoop_not_found {stop : Char → Bool} {l : List Char}
    (h : (scanLoop stop l).2 = false) : (scanLoop stop l).1 = l.length := by
  induction l with
  | nil => simp [scanLoop]
  | cons c rest ih =>
    by_cases hc : stop c
    · rw [scanLoop_cons_stop rest hc] at h; exact absurd h (by simp)
    · simp [scanLoop, hc] at h ⊢
      exact ih h

lemma scanLoop_found_drop {stop : Char → Bool} {l : List Char}
    (h : (scanLoop stop l).2 = true) :
    ∃ x t, l.drop (scanLoop stop l).1 = x :: t ∧ stop x = true := by
  induction l with
  | nil => simp [scanLoop] at h
  | cons c rest ih =>
    by_cases hc : stop c
    · exact ⟨c, rest, by rw [scanLoop_cons_stop rest hc]; simp, hc⟩
    · have hrec : scanLoop stop (c :: rest) =
          ((scanLoop stop rest).1 + 1, (scanLoop stop rest).2) := by
        simp [scanLoop, hc]
      rw [hrec] at h ⊢
      obtain ⟨x, t2, hd, hs⟩ := ih h
      exact ⟨x, t2, by simpa using hd, hs⟩

lemma wsLoop_le (l : List Char) : wsLoop l ≤ l.length := by
  induction l with
  | nil => simp [wsLoop]
  | cons c rest ih =>
    by_cases h : c = '\x09' || c = '\x20' <;> simp [wsLoop, h] <;> omega

lemma wsLoop_append_ws {w : List Char} (t : List Char)
    (h : ∀ x ∈ w, x = '\x09' ∨ x = '\x20') :
    wsLoop (w ++ t) = w.length + wsLoop t := by
  induction w with
  | nil => simp
  | cons c rest ih =>
    have hc : (c = '\x09' || c = '\x20') = true := by
      rcases h c (by simp) with h1 | h1 <;> simp [h1]
    have hrest : ∀ x ∈ rest, x = '\x09' ∨ x = '\x20' := fun x hx => h x (by simp [hx])
    simp [wsLoop, hc, ih hrest]
    omega

lemma wsLoop_cons_not_ws {c : Char} (t : List Char)
    (h : ¬(c = '\x09' ∨ c = '\x20')) : wsLoop (c :: t) = 0 := by
  have hc : (c = '\x09' || c = '\x20') = false := by
    simp only [Bool.or_eq_false_iff, decide_eq_false_iff_not]
    exact ⟨fun h1 => h (Or.inl h1), fun h1 => h (Or.inr h1)⟩
  simp [wsLoop, hc]

/-! ### Scanner operation characterizations -/

lemma scan_whitespace_repeating_snd (sc : StringScanner) :
    (sc.scan_whitespace_repeating).2 =
      ⟨sc.s, sc.cursor + wsLoop (sc.s.drop sc.cursor)⟩ := by
  unfold StringScanner.scan_whitespace_repeating
  by_cases h : wsLoop (sc.s.drop sc.cursor) > 0
  · simp [h]
  · have h0 : wsLoop (sc.s.drop sc.cursor) = 0 := by omega
    cases sc
    simp [h0]

lemma scan_char_once_pos {g : StringScanner} {c : Char} {t : List Char}
    (h : g.s.drop g.cursor = c :: t) :
    g.scan_char_once c = (ScanCharResult.CharFound 1, ⟨g.s, g.cursor + 1⟩) := by
  have hlt : g.cursor < g.s.length := lt_length_of_drop_cons h
  have hget : g.s[g.cursor]? = some c := getElem?_of_drop_cons h
  have hget2 : g.s[g.cursor] = c := by
    have h2 := List.getElem?_eq_getElem (l := g.s) (n := g.cursor) hlt
    rw [h2] at hget
    exact Option.some.inj hget
  unfold StringScanner.scan_char_once
  simp [hlt, List.get_eq_getElem, hget2]

lemma scan_char_once_neg {g : StringScanner} {c d : Char} {t : List Char}
    (h : g.s.drop g.cursor = d :: t) (hne : d ≠ c) :
    g.scan_char_once c = (ScanCharResult.CharNotFound, g) := by
  have hlt : g.cursor < g.s.length := lt_length_of_drop_cons h
  have hget : g.s[g.cursor]? = some d := getElem?_of_drop_cons h
  have hget2 : g.s[g.cursor] = d := by
    have h2 := List.getElem?_eq_getElem (l := g.s) (n := g.cursor) hlt
    rw [h2] at hget
    exact Option.some.inj hget
  unfold StringScanner.scan_char_once
  simp [hlt, List.get_eq_getElem, hget2, hne]

lemma scan_char_once_end {g : StringScanner} {c : Char}
    (h : g.s.drop g.cursor = []) :
    g.scan_char_once c = (ScanCharResult.CharNotFound, g) := by
  have hge : g.s.length ≤ g.cursor := List.drop_eq_nil_iff.mp h
  unfold StringScanner.scan_char_once
  simp [Nat.not_lt.mpr hge]

lemma scan_until_char_found {g : StringScanner} {c : Char} {a t : List Char}
    (h : g.s.drop g.cursor = a ++ c :: t) (ha : ∀ x ∈ a, x ≠ c) :
    g.scan_until_char c =
      (ScanUntilCharResult.CharFound, ⟨g.s, g.cursor + a.length⟩) := by
  unfold StringScanner.scan_until_char
  have hstop : ∀ x ∈ a, (fun y => decide (y = c)) x = false := by
    intro x hx
    simp [ha x hx]
  have hc : (fun y => decide (y = c)) c = true := by simp
  rw [h, scanLoop_append_no_stop _ hstop, scanLoop_cons_stop _ hc]
  simp

lemma scan_until_char_end {g : StringScanner} {c : Char} {a : List Char}
    (h : g.s.drop g.cursor = a) (ha : ∀ x ∈ a, x ≠ c) :
    g.scan_until_char c =
      (ScanUntilCharResult.EndOfStringReached, ⟨g.s, g.cursor + a.length⟩) := by
  unfold StringScanner.scan_until_char
  have hstop : ∀ x ∈ a, (fun y => decide (y = c)) x = false := by
    intro x hx
    simp [ha x hx]
  rw [h, scanLoop_no_stop hstop]
  simp

lemma scan_until_char_or_whitespace_found {g : StringScanner} {c d : Char}
    {a t : List Char} (h : g.s.drop g.cursor = a ++ d :: t)
    (ha : ∀ x ∈ a, x ≠ c ∧ x ≠ '\x09' ∧ x ≠ '\x20')
    (hd : d = c ∨ d = '\x09' ∨ d = '\x20') :
    g.scan_until_char_or_whitespace c =
      (ScanUntilCharResult.CharFound, ⟨g.s, g.cursor + a.length⟩) := by
  unfold StringScanner.scan_until_char_or_whitespace
  have hstop : ∀ x ∈ a,
      (fun y => decide (y = c) || decide (y = '\x09') || decide (y = '\x20')) x = false := by
    intro x hx
    rcases ha x hx with ⟨h1, h2, h3⟩
    simp [h1, h2, h3]
  have hds : (fun y => decide (y = c) || decide (y = '\x09') || decide (y = '\x20')) d = true := by
    rcases hd with h1 | h1 | h1 <;> simp [h1]
  rw [h, scanLoop_append_no_stop _ hstop, scanLoop_cons_stop _ hds]
  simp

lemma scan_until_char_or_whitespace_end {g : StringScanner} {c : Char}
    {a : List Char} (h : g.s.drop g.cursor = a)
    (ha : ∀ x ∈ a, x ≠ c ∧ x ≠ '\x09' ∧ x ≠ '\x20') :
    g.scan_until_char_or_whitespace c =
      (ScanUntilCharResult.EndOfStringReached, ⟨g.s, g.cursor + a.length⟩) := by
  unfold StringScanner.scan_until_char_or_whitespace
  have hstop : ∀ x ∈ a,
      (fun y => decide (y = c) || decide (y = '\x09') || decide (y = '\x20')) x = false := by
    intro x hx
    rcases ha x hx with ⟨h1, h2, h3⟩
    simp [h1, h2, h3]
  rw [h, scanLoop_no_stop hstop]
  simp

lemma substring_of_drop {g : StringScanner} {a t : List Char} {i : Nat}
    (hi : i ≤ g.s.length) (h : g.s.drop i = a ++ t) :
    g.substring i (i + a.length) = some a := by
  have hlen : g.s.length = i + a.length + t.length := by
    have h2 := length_eq_of_drop_eq hi h
    simp [List.length_append] at h2
    omega
  unfold StringScanner.substring
  have hcond : i ≤ i + a.length ∧ i + a.length ≤ g.s.length := by omega
  rw [if_pos hcond]
  congr 1
  have htake : g.s.take (i + a.length) = g.s.take i ++ a := by
    rw [List.take_add, h, List.take_left]
  rw [htake]
  have hlen2 : (g.s.take i).length = i := by
    rw [List.length_take]
    omega
  have hd := List.drop_left (g.s.take i) a
  rwa [hlen2] at hd

end BasicCookies

namespace BasicCookies

/-! ### Character-class facts -/

/-- The whitespace codepoints recognized by the scanner. -/
def IsWs (c : Char) : Prop := c = '\x09' ∨ c = '\x20'

instance (c : Char) : Decidable (IsWs c) := by
  unfold IsWs
  infer_instance

lemma token_char_ne {c : Char} (h : is_token_char c = true) :
    c ≠ '=' ∧ c ≠ ';' ∧ c ≠ '\x22' ∧ ¬ IsWs c := by
  refine ⟨?_, ?_, ?_, ?_⟩
  · intro he; rw [he] at h; exact absurd h (by decide)
  · intro he; rw [he] at h; exact absurd h (by decide)
  · intro he; rw [he] at h; exact absurd h (by decide)
  · rintro (he | he) <;> rw [he] at h <;> exact absurd h (by decide)

lemma cookie_octet_ne {c : Char} (h : is_cookie_octet c = true) :
    c ≠ ';' ∧ c ≠ '\x22' ∧ ¬ IsWs c := by
  refine ⟨?_, ?_, ?_⟩
  · intro he; rw [he] at h; exact absurd h (by decide)
  · intro he; rw [he] at h; exact absurd h (by decide)
  · rintro (he | he) <;> rw [he] at h <;> exact absurd h (by decide)

/-! ### Generic cursor bounds for the scan operations -/

lemma scan_char_once_bounds (sc : StringScanner) (c : Char) :
    (sc.scan_char_once c).2.s = sc.s ∧
    sc.cursor ≤ (sc.scan_char_once c).2.cursor ∧
    (sc.cursor ≤ sc.s.length → (sc.scan_char_once c).2.cursor ≤ sc.s.length) := by
  unfold StringScanner.scan_char_once
  by_cases h : sc.cursor < sc.s.length
  · rw [dif_pos h]
    by_cases h2 : sc.s.get ⟨sc.cursor, h⟩ = c
    · rw [if_pos h2]
      refine ⟨rfl, ?_, fun _ => ?_⟩
      · show sc.cursor ≤ sc.cursor + 1
        omega
      · show sc.cursor + 1 ≤ sc.s.length
        omega
    · rw [if_neg h2]
      exact ⟨rfl, le_refl _, fun hh => hh⟩
  · rw [dif_neg h]
    exact ⟨rfl, le_refl _, fun hh => hh⟩

lemma scan_until_char_bounds (sc : StringScanner) (c : Char) :
    (sc.scan_until_char c).2.s = sc.s ∧
    sc.cursor ≤ (sc.scan_until_char c).2.cursor ∧
    (sc.cursor ≤ sc.s.length → (sc.scan_until_char c).2.cursor ≤ sc.s.length) := by
  have hle := scanLoop_fst_le (fun y => decide (y = c)) (sc.s.drop sc.cursor)
  rw [List.length_drop] at hle
  unfold StringScanner.scan_until_char
  refine ⟨rfl, by simp, fun h => ?_⟩
  simp only
  omega

lemma scan_until_char_or_whitespace_bounds (sc : StringScanner) (c : Char) :
    (sc.scan_until_char_or_whitespace c).2.s = sc.s ∧
    sc.cursor ≤ (sc.scan_until_char_or_whitespace c).2.cursor ∧
    (sc.cursor ≤ sc.s.length →
      (sc.scan_until_char_or_whitespace c).2.cursor ≤ sc.s.length) := by
  have hle := scanLoop_fst_le
    (fun y => decide (y = c) || decide (y = '\x09') || decide (y = '\x20'))
    (sc.s.drop sc.cursor)
  rw [List.length_drop] at hle
  unfold StringScanner.scan_until_char_or_whitespace
  refine ⟨rfl, by simp, fun h => ?_⟩
  simp only
  omega

lemma scan_whitespace_repeating_bounds (sc : StringScanner) :
    (sc.scan_whitespace_repeating).2.s = sc.s ∧
    sc.cursor ≤ (sc.scan_whitespace_repeating).2.cursor ∧
    (sc.cursor ≤ sc.s.length →
      (sc.scan_whitespace_repeating).2.cursor ≤ sc.s.length) := by
  have hle := wsLoop_le (sc.s.drop sc.cursor)
  rw [List.length_drop] at hle
  rw [scan_whitespace_repeating_snd]
  refine ⟨rfl, by simp, fun h => ?_⟩
  simp only
  omega

/-! ### First-occurrence decompositions -/

lemma mem_split_takeWhile {c : Char} :
    ∀ {l : List Char}, c ∈ l →
      ∃ t, l = l.takeWhile (fun x => x ≠ c) ++ c :: t := by
  intro l hmem
  induction l with
  | nil => simp at hmem
  | cons x rest ih =>
    by_cases hx : x = c
    · subst hx
      exact ⟨rest, by simp [List.takeWhile_cons]⟩
    · have hmem2 : c ∈ rest := by
        rcases List.mem_cons.mp hmem with h1 | h1
        · exact absurd h1.symm hx
        · exact h1
      obtain ⟨t, ht⟩ := ih hmem2
      refine ⟨t, ?_⟩
      have hpx : (fun y => decide (y ≠ c)) x = true := by simpa using hx
      have hrw := List.takeWhile_cons_of_pos
        (p := fun y => decide (y ≠ c)) (a := x) (l := rest) hpx
      rw [hrw, List.cons_append]
      exact congrArg (x :: ·) ht

lemma takeWhile_mem_ne {c x : Char} {l : List Char}
    (h : x ∈ l.takeWhile (fun y => y ≠ c)) : x ≠ c := by
  have := List.mem_takeWhile_imp h
  simpa using this

lemma takeWhile_head_eq {p : Char → Bool} {l : List Char} {x : Char}
    (h : x ∈ (l.takeWhile p).head?) : x ∈ l.head? := by
  cases l with
  | nil => simp [List.takeWhile] at h
  | cons y rest =>
    by_cases hy : p y
    · simpa [List.takeWhile_cons, hy] using h
    · simp [List.takeWhile_cons, hy] at h

lemma dropWhile_head_not {p : Char → Bool} {l : List Char} {x : Char}
    {xs : List Char} (h : l.dropWhile p = x :: xs) : p x = false := by
  induction l with
  | nil => simp [List.dropWhile] at h
  | cons y rest ih =>
    by_cases hy : p y
    · rw [List.dropWhile_cons_of_pos hy] at h
      exact ih h
    · rw [List.dropWhile_cons_of_neg hy] at h
      cases h
      simpa using hy

end BasicCookies

namespace BasicCookies

/-- C7: `scan_until_char c` advances the cursor by exactly the number of
codepoints before the first occurrence of `c` at or after the cursor
(the length of the maximal `≠ c` prefix of the remaining input), leaves
the cursor ON that occurrence and reports `CharFound`; when no occurrence
exists it leaves the cursor at the codepoint length and reports
`EndOfStringReached`. -/
theorem scan_until_char_spec (s : List Char) (i : Nat) (c : Char)
    (h : i ≤ s.length) :
    (c ∈ s.drop i →
      StringScanner.scan_until_char ⟨s, i⟩ c =
        (ScanUntilCharResult.CharFound,
          ⟨s, i + (((s.drop i).takeWhile (fun x => x ≠ c)).length)⟩) ∧
      s[i + (((s.drop i).takeWhile (fun x => x ≠ c)).length)]? = some c) ∧
    (c ∉ s.drop i →
      StringScanner.scan_until_char ⟨s, i⟩ c =
        (ScanUntilCharResult.EndOfStringReached, ⟨s, s.length⟩)) := by
  constructor
  · intro hmem
    obtain ⟨t, ht⟩ := mem_split_takeWhile hmem
    have hd : (⟨s, i⟩ : StringScanner).s.drop (⟨s, i⟩ : StringScanner).cursor =
        ((s.drop i).takeWhile (fun x => x ≠ c)) ++ c :: t := ht
    have ha : ∀ x ∈ (s.drop i).takeWhile (fun x => x ≠ c), x ≠ c :=
      fun x hx => takeWhile_mem_ne hx
    refine ⟨scan_until_char_found hd ha, ?_⟩
    have hd2 : s.drop (i + ((s.drop i).takeWhile (fun x => x ≠ c)).length) =
        c :: t := drop_append_of_drop_eq ht
    exact getElem?_of_drop_cons hd2
  · intro hmem
    have ha : ∀ x ∈ s.drop i, x ≠ c := by
      intro x hx he
      exact hmem (he ▸ hx)
    have hres := scan_until_char_end (g := ⟨s, i⟩) (a := s.drop i) rfl ha
    rw [hres]
    have hlen : i + (s.drop i).length = s.length := by
      rw [List.length_drop]
      omega
    rw [hlen]

theorem scan_until_char_spec_witness :
    StringScanner.scan_until_char ⟨("ab;cd".toList), 0⟩ ';' =
      (ScanUntilCharResult.CharFound,
        ⟨("ab;cd".toList),
          0 + (((("ab;cd".toList).drop 0).takeWhile (fun x => x ≠ ';')).length)⟩) ∧
    ("ab;cd".toList)[0 +
        (((("ab;cd".toList).drop 0).takeWhile (fun x => x ≠ ';')).length)]? =
      some ';' :=
  (scan_until_char_spec ("ab;cd".toList) 0 ';' (by decide)).1 (by decide)

/-- C8: every scan operation preserves the cursor invariant
`cursor ≤ codepoint length` and is monotone (the cursor never moves
backwards).  The only indexed table read, in `scan_char_once`, is guarded
by `cursor < length`; the iterating scans walk `s.drop cursor`, which
never reaches past the table. -/
theorem scanner_cursor_invariant (s : List Char) (i : Nat) (c : Char)
    (h : i ≤ s.length) :
    (i ≤ (StringScanner.scan_char_once ⟨s, i⟩ c).2.cursor ∧
      (StringScanner.scan_char_once ⟨s, i⟩ c).2.cursor ≤ s.length) ∧
    (i ≤ (StringScanner.scan_until_char ⟨s, i⟩ c).2.cursor ∧
      (StringScanner.scan_until_char ⟨s, i⟩ c).2.cursor ≤ s.length) ∧
    (i ≤ (StringScanner.scan_until_char_or_whitespace ⟨s, i⟩ c).2.cursor ∧
      (StringScanner.scan_until_char_or_whitespace ⟨s, i⟩ c).2.cursor ≤ s.length) ∧
    (i ≤ (StringScanner.scan_whitespace_repeating ⟨s, i⟩).2.cursor ∧
      (StringScanner.scan_whitespace_repeating ⟨s, i⟩).2.cursor ≤ s.length) := by
  obtain ⟨_, h1m, h1b⟩ := scan_char_once_bounds ⟨s, i⟩ c
  obtain ⟨_, h2m, h2b⟩ := scan_until_char_bounds ⟨s, i⟩ c
  obtain ⟨_, h3m, h3b⟩ := scan_until_char_or_whitespace_bounds ⟨s, i⟩ c
  obtain ⟨_, h4m, h4b⟩ := scan_whitespace_repeating_bounds ⟨s, i⟩
  exact ⟨⟨h1m, h1b h⟩, ⟨h2m, h2b h⟩, ⟨h3m, h3b h⟩, ⟨h4m, h4b h⟩⟩

theorem scanner_cursor_invariant_witness :
    (1 ≤ (StringScanner.scan_char_once ⟨("ab".toList), 1⟩ 'b').2.cursor ∧
      (StringScanner.scan_char_once ⟨("ab".toList), 1⟩ 'b').2.cursor ≤
        ("ab".toList).length) ∧
    (1 ≤ (StringScanner.scan_until_char ⟨("ab".toList), 1⟩ 'b').2.cursor ∧
      (StringScanner.scan_until_char ⟨("ab".toList), 1⟩ 'b').2.cursor ≤
        ("ab".toList).length) ∧
    (1 ≤ (StringScanner.scan_until_char_or_whitespace
        ⟨("ab".toList), 1⟩ 'b').2.cursor ∧
      (StringScanner.scan_until_char_or_whitespace
        ⟨("ab".toList), 1⟩ 'b').2.cursor ≤ ("ab".toList).length) ∧
    (1 ≤ (StringScanner.scan_whitespace_repeating ⟨("ab".toList), 1⟩).2.cursor ∧
      (StringScanner.scan_whitespace_repeating ⟨("ab".toList), 1⟩).2.cursor ≤
        ("ab".toList).length) :=
  scanner_cursor_invariant ("ab".toList) 1 'b' (by decide)

end BasicCookies

namespace BasicCookies

/-! ### `parse_name` characterizations -/

lemma parse_name_at_end {s : List Char} {i : Nat} {w : List Char}
    (hi : i ≤ s.length) (hd : s.drop i = w) (hw : ∀ x ∈ w, IsWs x) :
    parse_name ⟨s, i⟩ = some (ParseNameResult.None, ⟨s, s.length⟩) := by
  have hws : wsLoop (s.drop i) = w.length := by
    rw [hd]
    simpa using wsLoop_append_ws (w := w) [] hw
  have hlen : s.length = i + w.length := length_eq_of_drop_eq hi hd
  unfold parse_name
  rw [scan_whitespace_repeating_snd]
  dsimp only
  rw [hws]
  have hend : (⟨s, i + w.length⟩ : StringScanner).is_at_end_of_string = true := by
    simp only [StringScanner.is_at_end_of_string, ge_iff_le, decide_eq_true_eq]
    omega
  rw [if_pos hend]
  rw [hlen]

lemma parse_name_name {s : List Char} {i : Nat} {w n r : List Char}
    (hi : i ≤ s.length) (hd : s.drop i = w ++ (n ++ '=' :: r))
    (hw : ∀ x ∈ w, IsWs x) (hn : ∀ x ∈ n, x ≠ '=')
    (hh : ∀ x ∈ n.head?, ¬ IsWs x) :
    parse_name ⟨s, i⟩ =
      some (ParseNameResult.Name n, ⟨s, i + w.length + n.length⟩) := by
  have h0 : wsLoop (n ++ '=' :: r) = 0 := by
    cases n with
    | nil =>
      simpa using wsLoop_cons_not_ws r (by decide)
    | cons x xs =>
      have hx := hh x (by simp)
      simpa using wsLoop_cons_not_ws (xs ++ '=' :: r) hx
  have hws : wsLoop (s.drop i) = w.length := by
    rw [hd, wsLoop_append_ws _ hw, h0]
    omega
  have hd1 : s.drop (i + w.length) = n ++ '=' :: r := drop_append_of_drop_eq hd
  have hlen : s.length = i + w.length + n.length + 1 + r.length := by
    have h2 := length_eq_of_drop_eq hi hd
    simp [List.length_append] at h2
    omega
  have hscan := scan_until_char_found (g := ⟨s, i + w.length⟩) (c := '=')
    (a := n) (t := r) hd1 hn
  have hsub : StringScanner.substring ⟨s, i + w.length + n.length⟩
      (i + w.length) (i + w.length + n.length) = some n := by
    have := substring_of_drop (g := ⟨s, i + w.length + n.length⟩)
      (i := i + w.length) (a := n) (t := '=' :: r)
      (by show i + w.length ≤ s.length; omega) hd1
    simpa using this
  unfold parse_name
  rw [scan_whitespace_repeating_snd]
  dsimp only
  rw [hws]
  have hend : (⟨s, i + w.length⟩ : StringScanner).is_at_end_of_string = false := by
    simp only [StringScanner.is_at_end_of_string, ge_iff_le, decide_eq_false_iff_not]
    omega
  rw [hend, if_neg Bool.false_ne_true, hscan]
  dsimp only
  rw [hsub]

lemma parse_name_value {s : List Char} {i : Nat} {w b : List Char}
    (hi : i ≤ s.length) (hd : s.drop i = w ++ b)
    (hw : ∀ x ∈ w, IsWs x) (hb : b ≠ []) (hbe : ∀ x ∈ b, x ≠ '=')
    (hh : ∀ x ∈ b.head?, ¬ IsWs x) :
    parse_name ⟨s, i⟩ = some (ParseNameResult.Value b, ⟨s, s.length⟩) := by
  obtain ⟨x, xs, rfl⟩ : ∃ x xs, b = x :: xs := by
    cases b with
    | nil => exact absurd rfl hb
    | cons x xs => exact ⟨x, xs, rfl⟩
  have h0 : wsLoop (x :: xs) = 0 :=
    wsLoop_cons_not_ws xs (hh x (by simp))
  have hws : wsLoop (s.drop i) = w.length := by
    rw [hd, wsLoop_append_ws _ hw, h0]
    omega
  have hd1 : s.drop (i + w.length) = x :: xs := drop_append_of_drop_eq hd
  have hlen : s.length = i + w.length + (x :: xs).length := by
    have h2 := length_eq_of_drop_eq hi hd
    simp [List.length_append] at h2
    simp
    omega
  have hscan := scan_until_char_end (g := ⟨s, i + w.length⟩) (c := '=')
    (a := x :: xs) hd1 hbe
  have hsub : StringScanner.substring ⟨s, i + w.length + (x :: xs).length⟩
      (i + w.length) (i + w.length + (x :: xs).length) = some (x :: xs) := by
    have := substring_of_drop (g := ⟨s, i + w.length + (x :: xs).length⟩)
      (i := i + w.length) (a := x :: xs) (t := [])
      (by show i + w.length ≤ s.length
          simp at hlen
          omega) (by simpa using hd1)
    simpa using this
  unfold parse_name
  rw [scan_whitespace_repeating_snd]
  dsimp only
  rw [hws]
  have hend : (⟨s, i + w.length⟩ : StringScanner).is_at_end_of_string = false := by
    simp only [StringScanner.is_at_end_of_string, ge_iff_le, decide_eq_false_iff_not]
    simp at hlen
    omega
  rw [hend, if_neg Bool.false_ne_true, hscan]
  dsimp only
  rw [hsub]
  dsimp only
  rw [show i + w.length + (x :: xs).length = s.length by simp at hlen; simp; omega]

end BasicCookies

namespace BasicCookies

/-! ### `parse_value` characterizations -/

lemma parse_value_semi {s : List Char} {i : Nat} {v r : List Char}
    (hi : i ≤ s.length) (hd : s.drop i = '=' :: (v ++ ';' :: r))
    (hv : ∀ x ∈ v, x ≠ ';' ∧ ¬ IsWs x) (hq : ∀ x ∈ v.head?, x ≠ '\x22') :
    parse_value ⟨s, i⟩ = some (some v, ⟨s, i + 1 + v.length + 1⟩) := by
  have h1 : StringScanner.scan_char_once ⟨s, i⟩ '=' =
      (ScanCharResult.CharFound 1, ⟨s, i + 1⟩) := scan_char_once_pos hd
  have hd1 : s.drop (i + 1) = v ++ ';' :: r := by
    have := drop_append_of_drop_eq (a := ['=']) (t := v ++ ';' :: r) (by simpa using hd)
    simpa using this
  obtain ⟨y, t2, hyt, hy⟩ : ∃ y t2, v ++ ';' :: r = y :: t2 ∧ y ≠ '\x22' := by
    cases v with
    | nil => exact ⟨';', r, by simp, by decide⟩
    | cons z zs => exact ⟨z, zs ++ ';' :: r, by simp, hq z (by simp)⟩
  have hdd : (⟨s, i + 1⟩ : StringScanner).s.drop
      (⟨s, i + 1⟩ : StringScanner).cursor = y :: t2 := by
    show s.drop (i + 1) = y :: t2
    rw [hd1, hyt]
  have h2 : StringScanner.scan_char_once ⟨s, i + 1⟩ '\x22' =
      (ScanCharResult.CharNotFound, ⟨s, i + 1⟩) := scan_char_once_neg hdd hy
  have h3 : StringScanner.scan_until_char_or_whitespace ⟨s, i + 1⟩ ';' =
      (ScanUntilCharResult.CharFound, ⟨s, i + 1 + v.length⟩) := by
    apply scan_until_char_or_whitespace_found (a := v) (d := ';') (t := r) hd1
    · intro x hx
      obtain ⟨hx1, hx2⟩ := hv x hx
      refine ⟨hx1, ?_, ?_⟩
      · intro he; exact hx2 (Or.inl he)
      · intro he; exact hx2 (Or.inr he)
    · exact Or.inl rfl
  have hd2 : s.drop (i + 1 + v.length) = ';' :: r := drop_append_of_drop_eq hd1
  have h4 : StringScanner.scan_char_once ⟨s, i + 1 + v.length⟩ ';' =
      (ScanCharResult.CharFound 1, ⟨s, i + 1 + v.length + 1⟩) :=
    scan_char_once_pos hd2
  have hlen : s.length = i + 1 + v.length + 1 + r.length := by
    have h5 := length_eq_of_drop_eq hi hd
    simp [List.length_append] at h5
    omega
  have hsub : StringScanner.substring ⟨s, i + 1 + v.length + 1⟩
      (i + 1) (i + 1 + v.length) = some v := by
    have := substring_of_drop (g := ⟨s, i + 1 + v.length + 1⟩)
      (i := i + 1) (a := v) (t := ';' :: r)
      (by show i + 1 ≤ s.length; omega) hd1
    simpa using this
  simp [parse_value, h1, h2, h3, h4, hsub]

end BasicCookies

namespace BasicCookies

lemma parse_value_ws {s : List Char} {i : Nat} {v : List Char} {wc : Char}
    {r : List Char} (hi : i ≤ s.length)
    (hd : s.drop i = '=' :: (v ++ wc :: r)) (hwc : IsWs wc)
    (hv : ∀ x ∈ v, x ≠ ';' ∧ ¬ IsWs x) (hq : ∀ x ∈ v.head?, x ≠ '\x22') :
    parse_value ⟨s, i⟩ = some (some v, ⟨s, i + 1 + v.length⟩) := by
  have h1 : StringScanner.scan_char_once ⟨s, i⟩ '=' =
      (ScanCharResult.CharFound 1, ⟨s, i + 1⟩) := scan_char_once_pos hd
  have hd1 : s.drop (i + 1) = v ++ wc :: r := by
    have := drop_append_of_drop_eq (a := ['=']) (t := v ++ wc :: r) (by simpa using hd)
    simpa using this
  have hwcq : wc ≠ '\x22' := by
    rcases hwc with h | h <;> rw [h] <;> decide
  have hwcs : wc ≠ ';' := by
    rcases hwc with h | h <;> rw [h] <;> decide
  obtain ⟨y, t2, hyt, hy⟩ : ∃ y t2, v ++ wc :: r = y :: t2 ∧ y ≠ '\x22' := by
    cases v with
    | nil => exact ⟨wc, r, by simp, hwcq⟩
    | cons z zs => exact ⟨z, zs ++ wc :: r, by simp, hq z (by simp)⟩
  have hdd : (⟨s, i + 1⟩ : StringScanner).s.drop
      (⟨s, i + 1⟩ : StringScanner).cursor = y :: t2 := by
    show s.drop (i + 1) = y :: t2
    rw [hd1, hyt]
  have h2 : StringScanner.scan_char_once ⟨s, i + 1⟩ '\x22' =
      (ScanCharResult.CharNotFound, ⟨s, i + 1⟩) := scan_char_once_neg hdd hy
  have h3 : StringScanner.scan_until_char_or_whitespace ⟨s, i + 1⟩ ';' =
      (ScanUntilCharResult.CharFound, ⟨s, i + 1 + v.length⟩) := by
    apply scan_until_char_or_whitespace_found (a := v) (d := wc) (t := r) hd1
    · intro x hx
      obtain ⟨hx1, hx2⟩ := hv x hx
      exact ⟨hx1, fun he => hx2 (Or.inl he), fun he => hx2 (Or.inr he)⟩
    · rcases hwc with h | h
      · exact Or.inr (Or.inl h)
      · exact Or.inr (Or.inr h)
  have hd2 : s.drop (i + 1 + v.length) = wc :: r := drop_append_of_drop_eq hd1
  have hdd2 : (⟨s, i + 1 + v.length⟩ : StringScanner).s.drop
      (⟨s, i + 1 + v.length⟩ : StringScanner).cursor = wc :: r := hd2
  have h4 : StringScanner.scan_char_once ⟨s, i + 1 + v.length⟩ ';' =
      (ScanCharResult.CharNotFound, ⟨s, i + 1 + v.length⟩) :=
    scan_char_once_neg hdd2 hwcs
  have hlen : s.length = i + 1 + v.length + 1 + r.length := by
    have h5 := length_eq_of_drop_eq hi hd
    simp [List.length_append] at h5
    omega
  have hsub : StringScanner.substring ⟨s, i + 1 + v.length⟩
      (i + 1) (i + 1 + v.length) = some v := by
    have := substring_of_drop (g := ⟨s, i + 1 + v.length⟩)
      (i := i + 1) (a := v) (t := wc :: r)
      (by show i + 1 ≤ s.length; omega) hd1
    simpa using this
  simp [parse_value, h1, h2, h3, h4, hsub]

lemma parse_value_endstr {s : List Char} {i : Nat} {v : List Char}
    (hi : i ≤ s.length) (hd : s.drop i = '=' :: v)
    (hv : ∀ x ∈ v, x ≠ ';' ∧ ¬ IsWs x) (hq : ∀ x ∈ v.head?, x ≠ '\x22')
    (hne : v ≠ []) :
    parse_value ⟨s, i⟩ = some (some v, ⟨s, s.length⟩) := by
  have h1 : StringScanner.scan_char_once ⟨s, i⟩ '=' =
      (ScanCharResult.CharFound 1, ⟨s, i + 1⟩) := scan_char_once_pos hd
  have hd1 : s.drop (i + 1) = v := by
    have := drop_append_of_drop_eq (a := ['=']) (t := v) (by simpa using hd)
    simpa using this
  obtain ⟨y, t2, hyt⟩ : ∃ y t2, v = y :: t2 := by
    cases v with
    | nil => exact absurd rfl hne
    | cons z zs => exact ⟨z, zs, rfl⟩
  have hy : y ≠ '\x22' := hq y (by rw [hyt]; simp)
  have hdd : (⟨s, i + 1⟩ : StringScanner).s.drop
      (⟨s, i + 1⟩ : StringScanner).cursor = y :: t2 := by
    show s.drop (i + 1) = y :: t2
    rw [hd1, hyt]
  have h2 : StringScanner.scan_char_once ⟨s, i + 1⟩ '\x22' =
      (ScanCharResult.CharNotFound, ⟨s, i + 1⟩) := scan_char_once_neg hdd hy
  have h3 : StringScanner.scan_until_char_or_whitespace ⟨s, i + 1⟩ ';' =
      (ScanUntilCharResult.EndOfStringReached, ⟨s, i + 1 + v.length⟩) := by
    apply scan_until_char_or_whitespace_end (a := v) hd1
    intro x hx
    obtain ⟨hx1, hx2⟩ := hv x hx
    exact ⟨hx1, fun he => hx2 (Or.inl he), fun he => hx2 (Or.inr he)⟩
  have hgt : i + 1 < i + 1 + v.length := by
    rw [hyt]
    simp
  have hlen : s.length = i + 1 + v.length := by
    have h5 := length_eq_of_drop_eq hi hd
    simp at h5
    omega
  have hsub : StringScanner.substring ⟨s, i + 1 + v.length⟩
      (i + 1) (i + 1 + v.length) = some v := by
    have := substring_of_drop (g := ⟨s, i + 1 + v.length⟩)
      (i := i + 1) (a := v) (t := [])
      (by show i + 1 ≤ s.length; omega) (by simpa using hd1)
    simpa using this
  simp [parse_value, h1, h2, h3, hgt, hsub, hlen]

lemma parse_value_empty {s : List Char} {i : Nat}
    (hi : i ≤ s.length) (hd : s.drop i = ['=']) :
    parse_value ⟨s, i⟩ = some (none, ⟨s, s.length⟩) := by
  have h1 : StringScanner.scan_char_once ⟨s, i⟩ '=' =
      (ScanCharResult.CharFound 1, ⟨s, i + 1⟩) := scan_char_once_pos hd
  have hd1 : s.drop (i + 1) = [] := by
    have := drop_append_of_drop_eq (a := ['=']) (t := []) (by simpa using hd)
    simpa using this
  have h2 : StringScanner.scan_char_once ⟨s, i + 1⟩ '\x22' =
      (ScanCharResult.CharNotFound, ⟨s, i + 1⟩) := scan_char_once_end hd1
  have h3 : StringScanner.scan_until_char_or_whitespace ⟨s, i + 1⟩ ';' =
      (ScanUntilCharResult.EndOfStringReached, ⟨s, i + 1 + ([] : List Char).length⟩) :=
    scan_until_char_or_whitespace_end hd1 (by simp)
  have hlen : s.length = i + 1 := by
    have h5 := length_eq_of_drop_eq hi hd
    simp at h5
    omega
  simp [parse_value, h1, h2, h3, hlen]

lemma parse_value_quoted_closed {s : List Char} {i : Nat} {inner : List Char}
    (hi : i ≤ s.length) (hd : s.drop i = '=' :: '\x22' :: (inner ++ ['\x22']))
    (hin : ∀ x ∈ inner, x ≠ '\x22') :
    parse_value ⟨s, i⟩ = some (some inner, ⟨s, s.length⟩) := by
  have h1 : StringScanner.scan_char_once ⟨s, i⟩ '=' =
      (ScanCharResult.CharFound 1, ⟨s, i + 1⟩) := scan_char_once_pos hd
  have hd1 : s.drop (i + 1) = '\x22' :: (inner ++ ['\x22']) := by
    have := drop_append_of_drop_eq (a := ['='])
      (t := '\x22' :: (inner ++ ['\x22'])) (by simpa using hd)
    simpa using this
  have h2 : StringScanner.scan_char_once ⟨s, i + 1⟩ '\x22' =
      (ScanCharResult.CharFound 1, ⟨s, i + 1 + 1⟩) := scan_char_once_pos hd1
  have hd2 : s.drop (i + 1 + 1) = inner ++ '\x22' :: [] := by
    have := drop_append_of_drop_eq (a := ['\x22'])
      (t := inner ++ ['\x22']) (by simpa using hd1)
    simpa using this
  have h3 : StringScanner.scan_until_char ⟨s, i + 1 + 1⟩ '\x22' =
      (ScanUntilCharResult.CharFound, ⟨s, i + 1 + 1 + inner.length⟩) :=
    scan_until_char_found hd2 hin
  have hd3 : s.drop (i + 1 + 1 + inner.length) = '\x22' :: [] :=
    drop_append_of_drop_eq hd2
  have h4 : StringScanner.scan_char_once ⟨s, i + 1 + 1 + inner.length⟩ '\x22' =
      (ScanCharResult.CharFound 1, ⟨s, i + 1 + 1 + inner.length + 1⟩) :=
    scan_char_once_pos hd3
  have hd4 : s.drop (i + 1 + 1 + inner.length + 1) = [] := by
    have := drop_append_of_drop_eq (a := ['\x22']) (t := [])
      (by simpa using hd3)
    simpa using this
  have h5 : StringScanner.scan_char_once ⟨s, i + 1 + 1 + inner.length + 1⟩ ';' =
      (ScanCharResult.CharNotFound, ⟨s, i + 1 + 1 + inner.length + 1⟩) :=
    scan_char_once_end hd4
  have hlen : s.length = i + 1 + 1 + inner.length + 1 := by
    have h6 := length_eq_of_drop_eq hi hd
    simp [List.length_append] at h6
    omega
  have hsub : StringScanner.substring ⟨s, i + 1 + 1 + inner.length + 1⟩
      (i + 1 + 1) (i + 1 + 1 + inner.length) = some inner := by
    have := substring_of_drop (g := ⟨s, i + 1 + 1 + inner.length + 1⟩)
      (i := i + 1 + 1) (a := inner) (t := '\x22' :: [])
      (by show i + 1 + 1 ≤ s.length; omega) hd2
    simpa using this
  simp [parse_value, h1, h2, h3, h4, h5, hsub, hlen]

lemma parse_value_quoted_unclosed {s : List Char} {i : Nat} {rest : List Char}
    (hi : i ≤ s.length) (hd : s.drop i = '=' :: '\x22' :: rest)
    (hin : ∀ x ∈ rest, x ≠ '\x22') (hne : rest ≠ []) :
    parse_value ⟨s, i⟩ = some (some rest, ⟨s, s.length⟩) := by
  have h1 : StringScanner.scan_char_once ⟨s, i⟩ '=' =
      (ScanCharResult.CharFound 1, ⟨s, i + 1⟩) := scan_char_once_pos hd
  have hd1 : s.drop (i + 1) = '\x22' :: rest := by
    have := drop_append_of_drop_eq (a := ['=']) (t := '\x22' :: rest)
      (by simpa using hd)
    simpa using this
  have h2 : StringScanner.scan_char_once ⟨s, i + 1⟩ '\x22' =
      (ScanCharResult.CharFound 1, ⟨s, i + 1 + 1⟩) := scan_char_once_pos hd1
  have hd2 : s.drop (i + 1 + 1) = rest := by
    have := drop_append_of_drop_eq (a := ['\x22']) (t := rest)
      (by simpa using hd1)
    simpa using this
  have h3 : StringScanner.scan_until_char ⟨s, i + 1 + 1⟩ '\x22' =
      (ScanUntilCharResult.EndOfStringReached, ⟨s, i + 1 + 1 + rest.length⟩) :=
    scan_until_char_end hd2 hin
  have hgt : i + 1 + 1 < i + 1 + 1 + rest.length := by
    cases rest with
    | nil => exact absurd rfl hne
    | cons z zs => simp
  have hlen : s.length = i + 1 + 1 + rest.length := by
    have h5 := length_eq_of_drop_eq hi hd
    simp at h5
    omega
  have hsub : StringScanner.substring ⟨s, i + 1 + 1 + rest.length⟩
      (i + 1 + 1) (i + 1 + 1 + rest.length) = some rest := by
    have := substring_of_drop (g := ⟨s, i + 1 + 1 + rest.length⟩)
      (i := i + 1 + 1) (a := rest) (t := [])
      (by show i + 1 + 1 ≤ s.length; omega) (by simpa using hd2)
    simpa using this
  simp [parse_value, h1, h2, h3, hgt, hsub, hlen]

end BasicCookies

namespace BasicCookies

/-! ### Totality of the parsing phases -/

lemma parse_name_cases {s : List Char} {i : Nat} (hi : i ≤ s.length) :
    (parse_name ⟨s, i⟩ = some (ParseNameResult.None, ⟨s, s.length⟩)) ∨
    (∃ nm j, parse_name ⟨s, i⟩ = some (ParseNameResult.Name nm, ⟨s, j⟩) ∧
      i ≤ j ∧ j < s.length ∧ s[j]? = some '=') ∨
    (∃ v, parse_name ⟨s, i⟩ = some (ParseNameResult.Value v, ⟨s, s.length⟩) ∧
      i < s.length) := by
  obtain ⟨w, rest, hw, hrest0, hsplit⟩ :
      ∃ w rest, w = (s.drop i).takeWhile (fun c => c = '\x09' || c = '\x20') ∧
        rest = (s.drop i).dropWhile (fun c => c = '\x09' || c = '\x20') ∧
        s.drop i = w ++ rest :=
    ⟨_, _, rfl, rfl, (List.takeWhile_append_dropWhile _ _).symm⟩
  have hwall : ∀ x ∈ w, IsWs x := by
    intro x hx
    rw [hw] at hx
    have h2 := List.mem_takeWhile_imp hx
    simp at h2
    exact h2
  cases hrc : rest with
  | nil =>
    left
    apply parse_name_at_end hi ?_ hwall
    rw [hsplit, hrc]
    simp
  | cons x xs =>
    have hxnw : ¬ IsWs x := by
      have h2 := dropWhile_head_not (by rw [← hrest0, hrc] :
        (s.drop i).dropWhile (fun c => c = '\x09' || c = '\x20') = x :: xs)
      simp at h2
      rintro (hh | hh)
      · exact h2.1 hh
      · exact h2.2 hh
    rw [hrc] at hsplit
    by_cases hmem : '=' ∈ (x :: xs)
    · obtain ⟨t, ht⟩ := mem_split_takeWhile hmem
      obtain ⟨n, hn⟩ : ∃ n, n = (x :: xs).takeWhile (fun z => z ≠ '=') := ⟨_, rfl⟩
      rw [← hn] at ht
      have hnall : ∀ y ∈ n, y ≠ '=' := by
        intro y hy
        rw [hn] at hy
        exact takeWhile_mem_ne hy
      have hndrop : s.drop i = w ++ (n ++ '=' :: t) := by
        rw [hsplit, ht]
      have hh : ∀ y ∈ n.head?, ¬ IsWs y := by
        intro y hy
        rw [hn] at hy
        have h3 := takeWhile_head_eq hy
        simp at h3
        rw [← h3]
        exact hxnw
      have hd1 := drop_append_of_drop_eq hndrop
      have hd2 := drop_append_of_drop_eq hd1
      right; left
      exact ⟨n, i + w.length + n.length,
        parse_name_name hi hndrop hwall hnall hh, by omega,
        lt_length_of_drop_cons hd2, getElem?_of_drop_cons hd2⟩
    · have hbe : ∀ y ∈ (x :: xs), y ≠ '=' := by
        intro y hy he
        exact hmem (he ▸ hy)
      have hh : ∀ y ∈ (x :: xs).head?, ¬ IsWs y := by
        intro y hy
        simp at hy
        rw [← hy]
        exact hxnw
      right; right
      refine ⟨x :: xs, parse_name_value hi hsplit hwall (by simp) hbe hh, ?_⟩
      have hd1 := drop_append_of_drop_eq hsplit
      have := lt_length_of_drop_cons hd1
      omega

end BasicCookies

namespace BasicCookies

lemma substring_total {g : StringScanner} {a b : Nat}
    (h1 : a ≤ b) (h2 : b ≤ g.s.length) :
    g.substring a b = some ((g.s.take b).drop a) := by
  unfold StringScanner.substring
  rw [if_pos ⟨h1, h2⟩]

lemma parse_value_total {s : List Char} {i : Nat} (hi : i ≤ s.length)
    (hhead : s[i]? = some '=') :
    ∃ out, parse_value ⟨s, i⟩ = some out ∧ out.2.s = s ∧
      i + 1 ≤ out.2.cursor ∧ out.2.cursor ≤ s.length := by
  have hlt : i < s.length := by
    by_contra hc
    rw [List.getElem?_eq_none (by omega)] at hhead
    exact Option.noConfusion hhead
  have hgi : s[i] = '=' := by
    have h2 := List.getElem?_eq_getElem (l := s) (n := i) hlt
    rw [h2] at hhead
    exact Option.some.inj hhead
  have hdrop : s.drop i = '=' :: s.drop (i + 1) := by
    rw [List.drop_eq_getElem_cons hlt, hgi]
  have h1 : StringScanner.scan_char_once ⟨s, i⟩ '=' =
      (ScanCharResult.CharFound 1, ⟨s, i + 1⟩) := scan_char_once_pos hdrop
  obtain ⟨hqs, hqm, hqb0⟩ := scan_char_once_bounds ⟨s, i + 1⟩ '\x22'
  have hqb := hqb0 (by show i + 1 ≤ s.length; omega)
  rcases hq : StringScanner.scan_char_once ⟨s, i + 1⟩ '\x22' with ⟨qr, qsc⟩
  rw [hq] at hqs hqm hqb
  simp only at hqs hqm hqb
  unfold parse_value
  rw [h1]
  dsimp only
  rw [hq]
  cases qr with
  | CharFound k =>
    dsimp only
    obtain ⟨hus, hum, hub0⟩ := scan_until_char_bounds qsc '\x22'
    have hub := hub0 (by rw [hqs]; exact hqb)
    rcases hu : qsc.scan_until_char '\x22' with ⟨ur, usc⟩
    rw [hu] at hus hum hub
    simp only at hus hum hub
    rw [hqs] at hus hub
    cases ur with
    | CharFound =>
      try simp only [reduceIte]
      obtain ⟨h4s, h4m, h4b0⟩ := scan_char_once_bounds usc '\x22'
      have h4b := h4b0 (by rw [hus]; exact hub)
      rw [hus] at h4s h4b
      obtain ⟨h5s, h5m, h5b0⟩ :=
        scan_char_once_bounds (usc.scan_char_once '\x22').2 ';'
      have h5b := h5b0 (by rw [h4s]; exact h4b)
      rw [h4s] at h5s h5b
      have hsub := substring_total
        (g := ((usc.scan_char_once '\x22').2.scan_char_once ';').2)
        (a := qsc.cursor) (b := usc.cursor) hum (by rw [h5s]; exact hub)
      simp only [hsub]
      exact ⟨_, rfl, h5s, le_trans hqm (le_trans hum (le_trans h4m h5m)), h5b⟩
    | EndOfStringReached =>
      try simp only [reduceIte]
      by_cases hgt : usc.cursor > qsc.cursor
      · rw [if_pos hgt]
        have hsub := substring_total (g := usc)
          (a := qsc.cursor) (b := usc.cursor) hum (by rw [hus]; exact hub)
        simp only [hsub]
        exact ⟨_, rfl, hus, le_trans hqm hum, hub⟩
      · rw [if_neg hgt]
        exact ⟨_, rfl, hus, le_trans hqm hum, hub⟩
  | CharNotFound =>
    dsimp only
    simp only [if_neg Bool.false_ne_true]
    obtain ⟨hus, hum, hub0⟩ := scan_until_char_or_whitespace_bounds qsc ';'
    have hub := hub0 (by rw [hqs]; exact hqb)
    rcases hu : qsc.scan_until_char_or_whitespace ';' with ⟨ur, usc⟩
    rw [hu] at hus hum hub
    simp only at hus hum hub
    rw [hqs] at hus hub
    cases ur with
    | CharFound =>
      dsimp only
      obtain ⟨h5s, h5m, h5b0⟩ := scan_char_once_bounds usc ';'
      have h5b := h5b0 (by rw [hus]; exact hub)
      rw [hus] at h5s h5b
      have hsub := substring_total (g := (usc.scan_char_once ';').2)
        (a := qsc.cursor) (b := usc.cursor) hum (by rw [h5s]; exact hub)
      rw [hsub]
      exact ⟨_, rfl, h5s, le_trans hqm (le_trans hum h5m), h5b⟩
    | EndOfStringReached =>
      dsimp only
      by_cases hgt : usc.cursor > qsc.cursor
      · rw [if_pos hgt]
        have hsub := substring_total (g := usc)
          (a := qsc.cursor) (b := usc.cursor) hum (by rw [hus]; exact hub)
        rw [hsub]
        exact ⟨_, rfl, hus, le_trans hqm hum, hub⟩
      · rw [if_neg hgt]
        exact ⟨_, rfl, hus, le_trans hqm hum, hub⟩

end BasicCookies

namespace BasicCookies

lemma parse_loop_total : ∀ (fuel : Nat) (sc : StringScanner)
    (acc : List UserAgentCookie), sc.cursor ≤ sc.s.length →
    sc.s.length - sc.cursor < fuel →
    ∃ cs, parse_loop fuel sc acc = some cs := by
  intro fuel
  induction fuel with
  | zero =>
    intro sc acc h1 h2
    omega
  | succ f ih =>
    intro sc acc h1 h2
    obtain ⟨s, i⟩ := sc
    simp only at h1 h2
    rcases parse_name_cases (s := s) (i := i) h1 with
      hno | ⟨nm, j, hn, hij, hjl, heq⟩ | ⟨v, hv, hil⟩
    · exact ⟨acc, by simp [parse_loop, hno]⟩
    · obtain ⟨out, hpv, hos, hoc1, hoc2⟩ :=
        parse_value_total (i := j) (le_of_lt hjl) heq
      obtain ⟨ov, osc⟩ := out
      simp only at hos hoc1 hoc2
      cases ov with
      | some v2 =>
        obtain ⟨cs, hcs⟩ := ih osc (acc ++ [⟨nm, v2⟩])
          (by rw [hos]; exact hoc2) (by rw [hos]; omega)
        exact ⟨cs, by simp [parse_loop, hn, hpv, hcs]⟩
      | none =>
        exact ⟨acc ++ [⟨nm, []⟩], by simp [parse_loop, hn, hpv]⟩
    · obtain ⟨cs, hcs⟩ := ih ⟨s, s.length⟩ (acc ++ [⟨[], v⟩])
        (le_refl _) (by show s.length - s.length < f; omega)
      exact ⟨cs, by simp [parse_loop, hv, hcs]⟩

/-- C3: `UserAgentCookie::parse` is total: for every input it returns a
sequence of cookies.  In this embedding `none` would mean either that the
driver loop ran out of fuel (`length + 1` steps) or that some internal
substring span was out of bounds, so the theorem shows the loop
terminates with the given fuel and the internal out-of-bounds error path
is never taken. -/
theorem parse_total : ∀ input : List Char,
    ∃ cookies, parse input = some cookies := by
  intro input
  have h := parse_loop_total (input.length + 1) ⟨input, 0⟩ []
    (by show 0 ≤ input.length; omega)
    (by show input.length - 0 < input.length + 1; omega)
  simpa [parse, StringScanner.from_list] using h

end BasicCookies

namespace BasicCookies

/-- C5: parsing `test=abc=123` yields exactly one pair `("test", "abc=123")`:
only the first `=` of the segment separates name from value, later `=`
characters stay verbatim in the value. -/
theorem parse_embedded_equals :
    parse ("test=abc=123".toList) =
      some [⟨"test".toList, "abc=123".toList⟩] := by decide

/-- C2 (code-bug evidence): with the name all token characters and the
value containing `"` (not a cookie octet), `emit_all` fails carrying the
offending value string — but the expected class it reports is `Token`,
not `CookieOctet` (user_agent_cookie.rs line 225 passes
`EncodingErrorExpectedClass::Token` in the value branch; the
`CookieOctet` variant is never constructed anywhere). -/
theorem emit_all_value_error_class :
    emit_all [⟨"a".toList, "\x22".toList⟩] =
      Except.error (EmitCookieError.EncodingErr
        ⟨"\x22".toList, EncodingErrorExpectedClass.Token⟩) ∧
    is_str_all_tokens ("a".toList) = true ∧
    is_str_all_cookie_octets ("\x22".toList) = false ∧
    EncodingErrorExpectedClass.Token ≠ EncodingErrorExpectedClass.CookieOctet :=
  ⟨rfl, rfl, rfl, by decide⟩

/-- C4 counterexample: inserting a space run after the pair `a=b` (before
the `;` separator) changes the parsed contents — the whitespace and the
`;` are absorbed into the next pair's name. -/
theorem parse_ws_after_pair_counterexample :
    parse ("a=b ; c=d".toList) =
      some [⟨"a".toList, "b".toList⟩, ⟨"; c".toList, "d".toList⟩] ∧
    parse ("a=b; c=d".toList) =
      some [⟨"a".toList, "b".toList⟩, ⟨"c".toList, "d".toList⟩] ∧
    parse ("a=b ; c=d".toList) ≠ parse ("a=b; c=d".toList) :=
  ⟨by decide, by decide, by decide⟩

end BasicCookies

namespace BasicCookies

/-! ### The byte-level `IndexedString` model -/

/-- Mirror of Rust `char::len_utf8`. -/
def len_utf8 (c : Char) : Nat :=
  if c.toNat < 0x80 then 1
  else if c.toNat < 0x800 then 2
  else if c.toNat < 0x10000 then 3
  else 4

/-- The UTF-8 encoding of one codepoint, as byte values. -/
def utf8Bytes (c : Char) : List Nat :=
  let n := c.toNat
  if n < 0x80 then [n]
  else if n < 0x800 then [0xc0 + n / 0x40, 0x80 + n % 0x40]
  else if n < 0x10000 then
    [0xe0 + n / 0x1000, 0x80 + n / 0x40 % 0x40, 0x80 + n % 0x40]
  else
    [0xf0 + n / 0x40000, 0x80 + n / 0x1000 % 0x40,
      0x80 + n / 0x40 % 0x40, 0x80 + n % 0x40]

/-- The UTF-8 byte string of a sequence of codepoints. -/
def utf8Encode (s : List Char) : List Nat :=
  (s.map utf8Bytes).flatten

/-- Mirror of `str::char_indices` starting at byte offset `off`: one
(byte-offset, codepoint) entry per codepoint. -/
def char_indices_from (off : Nat) : List Char → List (Nat × Char)
  | [] => []
  | c :: rest => (off, c) :: char_indices_from (off + len_utf8 c) rest

/-- Mirror of `IndexedString`: the wrapped string, kept as its codepoint
sequence; `bytes` below gives the underlying UTF-8 byte string and
`char_indexes` the index table built by `from_str`. -/
structure IndexedString where
  chars : List Char
deriving DecidableEq

def IndexedString.char_indexes (istr : IndexedString) : List (Nat × Char) :=
  char_indices_from 0 istr.chars

def IndexedString.bytes (istr : IndexedString) : List Nat :=
  utf8Encode istr.chars

/-- Mirror of `IndexedString::len`: the length of the codepoint table. -/
def IndexedString.len (istr : IndexedString) : Nat :=
  istr.char_indexes.length

/-- Mirror of `IndexedString::char_at_idx`; `none` models the
out-of-range indexing panic. -/
def IndexedString.char_at_idx (istr : IndexedString) (idx : Nat) : Option Char :=
  (istr.char_indexes.get? idx).map (fun p => p.2)

/-- Mirror of `idx_of_char_in_str`: the byte offset of codepoint `idx`,
with `idx = len` mapped to the end of the byte string. -/
def idx_of_char_in_str (istr : IndexedString) (idx : Nat) : Option Nat :=
  if idx = istr.char_indexes.length then
    if idx = 0 then some 0
    else
      match istr.char_indexes.get? (idx - 1) with
      | some (b, c) => some (b + len_utf8 c)
      | none => none
  else
    match istr.char_indexes.get? idx with
    | some (b, _) => some b
    | none => none

/-- Mirror of `IndexedString::substring`, at the byte level: the slice of
the original byte string between the byte offsets of the two codepoint
indices; `none` models the out-of-bounds slicing panic. -/
def IndexedString.substring (istr : IndexedString) (a b : Nat) :
    Option (List Nat) :=
  match idx_of_char_in_str istr a, idx_of_char_in_str istr b with
  | some ba, some bb =>
    if ba ≤ bb ∧ bb ≤ istr.bytes.length then
      some ((istr.bytes.take bb).drop ba)
    else none
  | _, _ => none

lemma utf8Bytes_length (c : Char) : (utf8Bytes c).length = len_utf8 c := by
  unfold utf8Bytes len_utf8
  dsimp only
  split_ifs <;> rfl

lemma utf8Encode_nil : utf8Encode [] = [] := rfl

lemma utf8Encode_cons (c : Char) (l : List Char) :
    utf8Encode (c :: l) = utf8Bytes c ++ utf8Encode l := by
  simp [utf8Encode]

lemma utf8Encode_append (a b : List Char) :
    utf8Encode (a ++ b) = utf8Encode a ++ utf8Encode b := by
  simp [utf8Encode]

lemma utf8Encode_cons_length (c : Char) (l : List Char) :
    (utf8Encode (c :: l)).length = len_utf8 c + (utf8Encode l).length := by
  rw [utf8Encode_cons]
  simp [utf8Bytes_length]

lemma char_indices_from_length (off : Nat) (s : List Char) :
    (char_indices_from off s).length = s.length := by
  induction s generalizing off with
  | nil => rfl
  | cons c rest ih => simp [char_indices_from, ih]

lemma char_indices_from_get? (s : List Char) :
    ∀ (off k : Nat), (char_indices_from off s).get? k =
      (s.get? k).map (fun c => (off + (utf8Encode (s.take k)).length, c)) := by
  induction s with
  | nil => intro off k; simp [char_indices_from]
  | cons c rest ih =>
    intro off k
    cases k with
    | zero => simp [char_indices_from, utf8Encode_nil]
    | succ k =>
      simp only [char_indices_from, List.get?_cons_succ, ih (off + len_utf8 c) k,
        List.take_succ_cons, utf8Encode_cons_length]
      cases rest.get? k with
      | none => simp
      | some d =>
        simp
        omega

end BasicCookies

namespace BasicCookies

lemma idx_of_char_in_str_spec (s : List Char) :
    ∀ k, k ≤ s.length →
      idx_of_char_in_str ⟨s⟩ k = some ((utf8Encode (s.take k)).length) := by
  intro k hk
  have hlen : (IndexedString.mk s).char_indexes.length = s.length :=
    char_indices_from_length 0 s
  unfold idx_of_char_in_str
  by_cases hke : k = s.length
  · rw [if_pos (by rw [hlen]; exact hke)]
    by_cases h0 : k = 0
    · rw [if_pos h0]
      subst h0
      simp [utf8Encode_nil]
    · rw [if_neg h0]
      have hk1 : k - 1 < s.length := by omega
      obtain ⟨c, hc⟩ : ∃ c, s.get? (k - 1) = some c := by
        rw [List.get?_eq_getElem?, List.getElem?_eq_getElem hk1]
        exact ⟨_, rfl⟩
      have hm : (IndexedString.mk s).char_indexes.get? (k - 1) =
          some (0 + (utf8Encode (s.take (k - 1))).length, c) := by
        show (char_indices_from 0 s).get? (k - 1) = _
        rw [char_indices_from_get? s 0 (k - 1), hc]
        rfl
      rw [hm]
      have htake : s.take k = s.take (k - 1) ++ [c] := by
        have hkk : k = (k - 1) + 1 := by omega
        conv_lhs => rw [hkk]
        rw [List.take_succ]
        congr 1
        rw [← List.get?_eq_getElem?, hc]
        rfl
      rw [htake, utf8Encode_append]
      simp [utf8Encode_cons_length, utf8Encode_nil, utf8Bytes_length]
  · rw [if_neg (by rw [hlen]; exact hke)]
    have hklt : k < s.length := by omega
    obtain ⟨c, hc⟩ : ∃ c, s.get? k = some c := by
      rw [List.get?_eq_getElem?, List.getElem?_eq_getElem hklt]
      exact ⟨_, rfl⟩
    have hm : (IndexedString.mk s).char_indexes.get? k =
        some (0 + (utf8Encode (s.take k)).length, c) := by
      show (char_indices_from 0 s).get? k = _
      rw [char_indices_from_get? s 0 k, hc]
      rfl
    rw [hm]
    simp

lemma char_at_idx_spec (s : List Char) (i : Nat) :
    (IndexedString.mk s).char_at_idx i = s.get? i := by
  unfold IndexedString.char_at_idx
  show ((char_indices_from 0 s).get? i).map _ = _
  rw [char_indices_from_get? s 0 i]
  cases s.get? i <;> rfl

lemma utf8Encode_take_le {s : List Char} {a b : Nat} (h : a ≤ b) :
    (utf8Encode (s.take a)).length ≤ (utf8Encode (s.take b)).length := by
  have hsp : s.take b = s.take a ++ (s.take b).drop a := by
    have h1 := List.take_append_drop a (s.take b)
    rw [List.take_take, Nat.min_eq_left h] at h1
    exact h1.symm
  rw [hsp, utf8Encode_append]
  simp

lemma indexed_substring_spec (s : List Char) {a b : Nat}
    (hab : a ≤ b) (hbl : b ≤ s.length) :
    (IndexedString.mk s).substring a b =
      some (utf8Encode ((s.take b).drop a)) := by
  unfold IndexedString.substring
  rw [idx_of_char_in_str_spec s a (le_trans hab hbl),
      idx_of_char_in_str_spec s b hbl]
  have hb_le : (utf8Encode (s.take b)).length ≤
      (IndexedString.mk s).bytes.length := by
    show _ ≤ (utf8Encode s).length
    conv_rhs => rw [← List.take_length (l := s)]
    exact utf8Encode_take_le hbl
  have ha_le : (utf8Encode (s.take a)).length ≤
      (utf8Encode (s.take b)).length := utf8Encode_take_le hab
  dsimp only
  rw [if_pos ⟨ha_le, hb_le⟩]
  congr 1
  have hsplit : utf8Encode s = utf8Encode (s.take b) ++ utf8Encode (s.drop b) := by
    rw [← utf8Encode_append, List.take_append_drop]
  have htake : ((IndexedString.mk s).bytes).take ((utf8Encode (s.take b)).length)
      = utf8Encode (s.take b) := by
    show (utf8Encode s).take _ = _
    rw [hsplit]
    exact List.take_left _ _
  rw [htake]
  have hsp2 : s.take b = s.take a ++ (s.take b).drop a := by
    have h1 := List.take_append_drop a (s.take b)
    rw [List.take_take, Nat.min_eq_left hab] at h1
    exact h1.symm
  have henc : utf8Encode (s.take b) =
      utf8Encode (s.take a) ++ utf8Encode ((s.take b).drop a) := by
    rw [← utf8Encode_append, ← hsp2]
  rw [henc]
  exact List.drop_left _ _

/-- C9: `IndexedString` addresses by Unicode codepoint, not byte: `len`
is the number of codepoints, `char_at_idx i` is the `i`-th codepoint for
`i < len`, and `substring from to` (with `from ≤ to ≤ len`) returns
exactly the byte slice of the original string that encodes codepoints
`[from, to)`; in particular for `"東京都"`, `len = 3` and
`char_at_idx 1 = '京'`. -/
theorem indexed_string_codepoint_addressing (s : List Char) :
    (IndexedString.mk s).len = s.length ∧
    (∀ i, i < s.length → (IndexedString.mk s).char_at_idx i = s.get? i) ∧
    (∀ a b, a ≤ b → b ≤ s.length →
      (IndexedString.mk s).substring a b =
        some (utf8Encode ((s.take b).drop a))) ∧
    (IndexedString.mk ("東京都".toList)).len = 3 ∧
    (IndexedString.mk ("東京都".toList)).char_at_idx 1 = some '京' := by
  refine ⟨char_indices_from_length 0 s, fun i _ => char_at_idx_spec s i,
    fun a b hab hbl => indexed_substring_spec s hab hbl, ?_, ?_⟩
  · decide
  · decide

theorem indexed_string_codepoint_addressing_witness :
    (IndexedString.mk ("東京都".toList)).char_at_idx 1 =
      ("東京都".toList).get? 1 ∧
    (IndexedString.mk ("東京都".toList)).substring 1 3 =
      some (utf8Encode ((("東京都".toList).take 3).drop 1)) :=
  ⟨(indexed_string_codepoint_addressing ("東京都".toList)).2.1 1 (by decide),
    (indexed_string_codepoint_addressing ("東京都".toList)).2.2.1 1 3
      (by decide) (by decide)⟩

end BasicCookies

namespace BasicCookies

lemma parse_loop_end (fuel : Nat) (s : List Char) (acc : List UserAgentCookie)
    (hf : 0 < fuel) : parse_loop fuel ⟨s, s.length⟩ acc = some acc := by
  cases fuel with
  | zero => omega
  | succ f =>
    have h := parse_name_at_end (s := s) (i := s.length) (w := [])
      (le_refl _) (by simp) (by simp)
    simp [parse_loop, h]

lemma all_tokens_facts {name : List Char}
    (hname : is_str_all_tokens name = true) :
    (∀ x ∈ name, x ≠ '=') ∧ (∀ x ∈ name.head?, ¬ IsWs x) := by
  simp only [is_str_all_tokens, List.all_eq_true] at hname
  constructor
  · intro x hx
    exact (token_char_ne (hname x hx)).1
  · intro x hx
    have hmem : x ∈ name := by
      cases name with
      | nil => simp at hx
      | cons y ys =>
        simp at hx
        simp [hx]
    exact (token_char_ne (hname x hmem)).2.2.2

/-- C6: a double-quote-opened value is taken verbatim up to the closing
quote, internal tab/space included; the quotes are stripped.  Stated for
every token-character name and every quote-free inner span, so
`k="a b"` parses to the single pair `("k", "a b")`. -/
theorem parse_quoted_value_verbatim (name inner : List Char)
    (hname : is_str_all_tokens name = true)
    (hinner : ∀ x ∈ inner, x ≠ '\x22') :
    parse (name ++ '=' :: '\x22' :: (inner ++ ['\x22'])) =
      some [⟨name, inner⟩] := by
  obtain ⟨hne, hh⟩ := all_tokens_facts hname
  have hd0 : (name ++ '=' :: '\x22' :: (inner ++ ['\x22'])).drop 0 =
      [] ++ (name ++ '=' :: ('\x22' :: (inner ++ ['\x22']))) := by
    simp
  have hpn := parse_name_name (i := 0) (w := []) (r := '\x22' :: (inner ++ ['\x22']))
    (by omega) hd0 (by simp) hne hh
  simp only [List.length_nil, Nat.add_zero, Nat.zero_add] at hpn
  have hd0b : (name ++ '=' :: '\x22' :: (inner ++ ['\x22'])).drop 0 =
      name ++ ('=' :: '\x22' :: (inner ++ ['\x22'])) := by
    simp
  have hd1 : (name ++ '=' :: '\x22' :: (inner ++ ['\x22'])).drop name.length =
      '=' :: '\x22' :: (inner ++ ['\x22']) := by
    have := drop_append_of_drop_eq (i := 0) (a := name)
      (t := '=' :: '\x22' :: (inner ++ ['\x22'])) hd0b
    simpa using this
  have hpv := parse_value_quoted_closed (i := name.length)
    (by
      have := List.length_append name ('=' :: '\x22' :: (inner ++ ['\x22']))
      omega)
    hd1 hinner
  have hpos : 0 < (name ++ '=' :: '\x22' :: (inner ++ ['\x22'])).length := by
    simp
  simp only [parse, StringScanner.from_list]
  rw [show (name ++ '=' :: '\x22' :: (inner ++ ['\x22'])).length + 1 =
    ((name ++ '=' :: '\x22' :: (inner ++ ['\x22'])).length) + 1 from rfl]
  simp only [parse_loop, hpn, hpv]
  rw [parse_loop_end _ _ _ hpos]
  simp

theorem parse_quoted_value_verbatim_witness :
    parse (("k".toList) ++ '=' :: '\x22' :: (("a b".toList) ++ ['\x22'])) =
      some [⟨"k".toList, "a b".toList⟩] :=
  parse_quoted_value_verbatim ("k".toList) ("a b".toList) (by decide) (by decide)

/-- C10: an opening quote that is never closed is absorbed: for
`name="rest` with `rest` nonempty and quote-free, parse yields exactly
one pair `(name, rest)` (the opening quote removed). -/
theorem parse_unterminated_quote (name rest : List Char)
    (hname : is_str_all_tokens name = true)
    (hrest : ∀ x ∈ rest, x ≠ '\x22') (hne : rest ≠ []) :
    parse (name ++ '=' :: '\x22' :: rest) = some [⟨name, rest⟩] := by
  obtain ⟨hneq, hh⟩ := all_tokens_facts hname
  have hd0 : (name ++ '=' :: '\x22' :: rest).drop 0 =
      [] ++ (name ++ '=' :: ('\x22' :: rest)) := by
    simp
  have hpn := parse_name_name (i := 0) (w := []) (r := '\x22' :: rest)
    (by omega) hd0 (by simp) hneq hh
  simp only [List.length_nil, Nat.add_zero, Nat.zero_add] at hpn
  have hd0b : (name ++ '=' :: '\x22' :: rest).drop 0 =
      name ++ ('=' :: '\x22' :: rest) := by
    simp
  have hd1 : (name ++ '=' :: '\x22' :: rest).drop name.length =
      '=' :: '\x22' :: rest := by
    have := drop_append_of_drop_eq (i := 0) (a := name)
      (t := '=' :: '\x22' :: rest) hd0b
    simpa using this
  have hpv := parse_value_quoted_unclosed (i := name.length)
    (by
      have := List.length_append name ('=' :: '\x22' :: rest)
      omega)
    hd1 hrest hne
  have hpos : 0 < (name ++ '=' :: '\x22' :: rest).length := by
    simp
  simp only [parse, StringScanner.from_list]
  simp only [parse_loop, hpn, hpv]
  rw [parse_loop_end _ _ _ hpos]
  simp

theorem parse_unterminated_quote_witness :
    parse (("k".toList) ++ '=' :: '\x22' :: ("abc".toList)) =
      some [⟨"k".toList, "abc".toList⟩] :=
  parse_unterminated_quote ("k".toList) ("abc".toList) (by decide) (by decide)
    (by decide)

end BasicCookies

namespace BasicCookies

/-! ### Decorated headers: emitted pairs with inserted whitespace -/

/-- The tail of a decorated header: either only trailing whitespace, or a
final bare segment (one with no `=`) with whitespace inserted before it. -/
inductive DecoTail where
  | ws : List Char → DecoTail
  | bare : List Char → List Char → DecoTail

/-- The cookies a tail contributes: a bare segment parses as a pair with
an empty name. -/
def tailCookies : DecoTail → List UserAgentCookie
  | DecoTail.ws _ => []
  | DecoTail.bare _ b => [⟨[], b⟩]

/-- The rendering of a tail after a preceding pair (so a bare segment is
introduced by the `"; "` separator). -/
def tailRender : DecoTail → List Char
  | DecoTail.ws w2 => w2
  | DecoTail.bare w2 b => ';' :: '\x20' :: (w2 ++ b)

/-- A decorated header: each pair `name=value` preceded by an inserted
whitespace run, pairs joined by `"; "`, ending in a tail. -/
def deco : List (List Char × UserAgentCookie) → DecoTail → List Char
  | [], DecoTail.ws w2 => w2
  | [], DecoTail.bare w2 b => w2 ++ b
  | [(w, c)], t => w ++ c.name ++ '=' :: (c.value ++ tailRender t)
  | (w, c) :: p2 :: rs, t =>
    w ++ c.name ++ '=' :: (c.value ++ ';' :: '\x20' :: deco (p2 :: rs) t)

/-- Validity of the decoration: whitespace runs are tab/space, names are
token characters, values are cookie octets. -/
def validDeco (dcs : List (List Char × UserAgentCookie)) : Prop :=
  ∀ p ∈ dcs, (∀ x ∈ p.1, IsWs x) ∧ is_str_all_tokens p.2.name = true ∧
    is_str_all_cookie_octets p.2.value = true

/-- Validity of the tail: trailing whitespace is tab/space; a bare
segment is nonempty, contains no `=`, and does not begin with
whitespace. -/
def validTail : DecoTail → Prop
  | DecoTail.ws w2 => ∀ x ∈ w2, IsWs x
  | DecoTail.bare w2 b => (∀ x ∈ w2, IsWs x) ∧ b ≠ [] ∧
      (∀ x ∈ b, x ≠ '=') ∧ (∀ x ∈ b.head?, ¬ IsWs x)

lemma mem_of_head? {x : Char} {l : List Char} (h : x ∈ l.head?) : x ∈ l := by
  cases l with
  | nil => simp at h
  | cons y ys =>
    simp at h
    simp [h]

lemma all_octets_facts {v : List Char}
    (hv : is_str_all_cookie_octets v = true) :
    (∀ x ∈ v, x ≠ ';' ∧ ¬ IsWs x) ∧ (∀ x ∈ v.head?, x ≠ '\x22') := by
  simp only [is_str_all_cookie_octets, List.all_eq_true] at hv
  constructor
  · intro x hx
    obtain ⟨h1, _, h3⟩ := cookie_octet_ne (hv x hx)
    exact ⟨h1, h3⟩
  · intro x hx
    exact (cookie_octet_ne (hv x (mem_of_head? hx))).2.1

lemma parse_loop_deco (dcs : List (List Char × UserAgentCookie)) :
    ∀ (t : DecoTail) (fuel : Nat) (s : List Char) (i : Nat)
      (acc : List UserAgentCookie) (w0 : List Char),
      i ≤ s.length → s.drop i = w0 ++ deco dcs t → (∀ x ∈ w0, IsWs x) →
      validDeco dcs → validTail t → s.length - i < fuel →
      parse_loop fuel ⟨s, i⟩ acc =
        some (acc ++ dcs.map (fun p => p.2) ++ tailCookies t) := by
  induction dcs with
  | nil =>
    intro t fuel s i acc w0 hi hd hw0 _ hvt hfuel
    cases t with
    | ws w2 =>
      obtain ⟨f, rfl⟩ : ∃ f, fuel = f + 1 := ⟨fuel - 1, by omega⟩
      have hpn := parse_name_at_end (w := w0 ++ w2) hi
        (by simpa [deco] using hd)
        (by
          intro x hx
          rcases List.mem_append.mp hx with h | h
          · exact hw0 x h
          · exact hvt x h)
      simp [parse_loop, hpn, tailCookies]
    | bare w2 b =>
      obtain ⟨hwt, hbne, hbe, hbh⟩ := hvt
      obtain ⟨f, rfl⟩ : ∃ f, fuel = f + 1 := ⟨fuel - 1, by omega⟩
      have hd2 : s.drop i = (w0 ++ w2) ++ b := by
        simpa [deco, List.append_assoc] using hd
      have hpn := parse_name_value hi hd2
        (by
          intro x hx
          rcases List.mem_append.mp hx with h | h
          · exact hw0 x h
          · exact hwt x h)
        hbne hbe hbh
      have hlenpos : 1 ≤ s.length - i := by
        have hle := length_eq_of_drop_eq hi hd2
        simp [List.length_append] at hle
        cases b with
        | nil => exact absurd rfl hbne
        | cons z zs =>
          simp at hle
          omega
      have hend := parse_loop_end f s (acc ++ [⟨[], b⟩]) (by omega)
      simp [parse_loop, hpn, hend, tailCookies]
  | cons p rest ih =>
    intro t fuel s i acc w0 hi hd hw0 hvd hvt hfuel
    obtain ⟨w, c⟩ := p
    obtain ⟨cn, cv⟩ := c
    obtain ⟨hww, hcn, hcv⟩ := hvd (w, ⟨cn, cv⟩) (by simp)
    have hvdr : validDeco rest := fun q hq => hvd q (by simp [hq])
    obtain ⟨hcne, hcnh⟩ := all_tokens_facts hcn
    obtain ⟨hcvf, hcvq⟩ := all_octets_facts hcv
    obtain ⟨f, rfl⟩ : ∃ f, fuel = f + 1 := ⟨fuel - 1, by omega⟩
    have hwall : ∀ x ∈ w0 ++ w, IsWs x := by
      intro x hx
      rcases List.mem_append.mp hx with h | h
      · exact hw0 x h
      · exact hww x h
    cases rest with
    | nil =>
      have hd1 : s.drop i = (w0 ++ w) ++ (cn ++ '=' :: (cv ++ tailRender t)) := by
        simpa [deco, List.append_assoc] using hd
      have hpn := parse_name_name hi hd1 hwall hcne hcnh
      have hdA := drop_append_of_drop_eq hd1
      have hdB := drop_append_of_drop_eq hdA
      have hjlt := lt_length_of_drop_cons hdB
      cases t with
      | ws w2 =>
        cases w2 with
        | nil =>
          simp only [tailRender, List.append_nil] at hdB
          cases cv with
          | nil =>
            have hpv := parse_value_empty (le_of_lt hjlt) hdB
            simp only [List.length_append] at hpv
            simp [parse_loop, hpn, hpv, tailCookies]
          | cons z zs =>
            have hpv := parse_value_endstr (le_of_lt hjlt) hdB hcvf hcvq
              (by simp)
            have hend := parse_loop_end f s (acc ++ [⟨cn, z :: zs⟩]) (by omega)
            simp only [List.length_append] at hpv
            simp [parse_loop, hpn, hpv, hend, tailCookies]
        | cons wc w2p =>
          simp only [tailRender] at hdB
          have hwc : IsWs wc := hvt wc (by simp)
          have hpv := parse_value_ws (le_of_lt hjlt) hdB hwc hcvf hcvq
          have hdB1 := drop_append_of_drop_eq (a := ['='])
            (t := cv ++ wc :: w2p) hdB
          simp only [List.length_singleton] at hdB1
          have hdC := drop_append_of_drop_eq hdB1
          have hjlt2 := lt_length_of_drop_cons hdC
          have ihres := ih (DecoTail.ws (wc :: w2p)) f s
            (i + (w0 ++ w).length + cn.length + 1 + cv.length)
            (acc ++ [⟨cn, cv⟩]) []
            (le_of_lt hjlt2) (by simpa [deco] using hdC) (by simp)
            (fun q hq => absurd hq (by simp)) hvt (by omega)
          simp only [List.length_append] at hpv ihres
          simp [parse_loop, hpn, hpv, ihres, tailCookies]
      | bare w2 b =>
        simp only [tailRender] at hdB
        have hpv := parse_value_semi (le_of_lt hjlt) hdB hcvf hcvq
        have hdB1 := drop_append_of_drop_eq (a := ['='])
          (t := cv ++ ';' :: ('\x20' :: (w2 ++ b))) hdB
        simp only [List.length_singleton] at hdB1
        have hdB2 := drop_append_of_drop_eq hdB1
        have hdC := drop_append_of_drop_eq (a := [';'])
          (t := '\x20' :: (w2 ++ b)) hdB2
        simp only [List.length_singleton] at hdC
        have hjlt2 := lt_length_of_drop_cons hdC
        have ihres := ih (DecoTail.bare w2 b) f s
          (i + (w0 ++ w).length + cn.length + 1 + cv.length + 1)
          (acc ++ [⟨cn, cv⟩]) ['\x20']
          (le_of_lt hjlt2) (by simpa [deco] using hdC)
          (by
            intro x hx
            simp at hx
            rw [hx]
            exact Or.inr rfl)
          (fun q hq => absurd hq (by simp)) hvt (by omega)
        simp only [List.length_append] at hpv ihres
        simp [parse_loop, hpn, hpv, ihres, tailCookies]
    | cons p2 rs =>
      have hd1 : s.drop i = (w0 ++ w) ++
          (cn ++ '=' :: (cv ++ ';' :: ('\x20' :: deco (p2 :: rs) t))) := by
        simpa [deco, List.append_assoc] using hd
      have hpn := parse_name_name hi hd1 hwall hcne hcnh
      have hdA := drop_append_of_drop_eq hd1
      have hdB := drop_append_of_drop_eq hdA
      have hjlt := lt_length_of_drop_cons hdB
      have hpv := parse_value_semi (le_of_lt hjlt) hdB hcvf hcvq
      have hdB1 := drop_append_of_drop_eq (a := ['='])
        (t := cv ++ ';' :: ('\x20' :: deco (p2 :: rs) t)) hdB
      simp only [List.length_singleton] at hdB1
      have hdB2 := drop_append_of_drop_eq hdB1
      have hdC := drop_append_of_drop_eq (a := [';'])
        (t := '\x20' :: deco (p2 :: rs) t) hdB2
      simp only [List.length_singleton] at hdC
      have hjlt2 := lt_length_of_drop_cons hdC
      have ihres := ih t f s
        (i + (w0 ++ w).length + cn.length + 1 + cv.length + 1)
        (acc ++ [⟨cn, cv⟩]) ['\x20']
        (le_of_lt hjlt2) (by simpa using hdC)
        (by
          intro x hx
          simp at hx
          rw [hx]
          exact Or.inr rfl)
        hvdr hvt (by omega)
      simp only [List.length_append] at hpv ihres
      simp [parse_loop, hpn, hpv, ihres, tailCookies]

end BasicCookies

namespace BasicCookies

/-- The decoration with every inserted whitespace run removed. -/
def stripTail : DecoTail → DecoTail
  | DecoTail.ws _ => DecoTail.ws []
  | DecoTail.bare _ b => DecoTail.bare [] b

/-- Validity of a plain cookie list for emission: names all token
characters, values all cookie octets. -/
def validCookies (cs : List UserAgentCookie) : Prop :=
  ∀ c ∈ cs, is_str_all_tokens c.name = true ∧
    is_str_all_cookie_octets c.value = true

lemma emit_all_loop_cons_ok {c : UserAgentCookie}
    (rest : List UserAgentCookie) (is_first : Bool) (result : List Char)
    (hn : is_str_all_tokens c.name = true)
    (hv : is_str_all_cookie_octets c.value = true) :
    emit_all_loop (c :: rest) is_first result =
      emit_all_loop rest false
        ((if is_first then result else result ++ [';', '\x20']) ++
          c.name ++ '=' :: c.value) := by
  simp [emit_all_loop, hn, hv]

lemma emit_all_loop_ok :
    ∀ (cs : List UserAgentCookie) (acc : List Char), validCookies cs →
      cs ≠ [] →
      emit_all_loop cs false acc = Except.ok
        (acc ++ ';' :: '\x20' ::
          deco (cs.map (fun c => (([] : List Char), c))) (DecoTail.ws [])) := by
  intro cs
  induction cs with
  | nil => intro acc _ hne; exact absurd rfl hne
  | cons c rest ih =>
    intro acc hval _
    obtain ⟨hn, hv⟩ := hval c (by simp)
    have hvr : validCookies rest := fun d hd => hval d (by simp [hd])
    rw [emit_all_loop_cons_ok rest false acc hn hv]
    cases rest with
    | nil =>
      simp [emit_all_loop, deco, tailRender]
    | cons c2 rs =>
      rw [ih _ hvr (by simp)]
      simp [deco]

lemma emit_all_eq_deco (cs : List UserAgentCookie) (hval : validCookies cs) :
    emit_all cs = Except.ok
      (deco (cs.map (fun c => (([] : List Char), c))) (DecoTail.ws [])) := by
  cases cs with
  | nil => rfl
  | cons c rest =>
    obtain ⟨hn, hv⟩ := hval c (by simp)
    have hvr : validCookies rest := fun d hd => hval d (by simp [hd])
    unfold emit_all
    rw [emit_all_loop_cons_ok rest true [] hn hv]
    cases rest with
    | nil =>
      simp [emit_all_loop, deco, tailRender]
    | cons c2 rs =>
      rw [emit_all_loop_ok _ _ hvr (by simp)]
      simp [deco]

lemma validDeco_of_validCookies {cs : List UserAgentCookie}
    (h : validCookies cs) :
    validDeco (cs.map (fun c => (([] : List Char), c))) := by
  intro p hp
  simp only [List.mem_map] at hp
  obtain ⟨c, hc, rfl⟩ := hp
  exact ⟨by simp, (h c hc).1, (h c hc).2⟩

/-- C1: any sequence of cookies whose names are all token characters and
whose values are all cookie octets is emitted successfully, and parsing
the emitted string returns exactly the same sequence of name/value
pairs. -/
theorem round_trip_parse_emit (cs : List UserAgentCookie)
    (hval : validCookies cs) :
    ∃ out, emit_all cs = Except.ok out ∧ parse out = some cs := by
  refine ⟨deco (cs.map (fun c => (([] : List Char), c))) (DecoTail.ws []),
    emit_all_eq_deco cs hval, ?_⟩
  have hmain := parse_loop_deco (cs.map (fun c => (([] : List Char), c)))
    (DecoTail.ws [])
    ((deco (cs.map (fun c => (([] : List Char), c))) (DecoTail.ws [])).length + 1)
    (deco (cs.map (fun c => (([] : List Char), c))) (DecoTail.ws []))
    0 [] [] (by omega) (by simp) (by simp)
    (validDeco_of_validCookies hval) (by intro x hx; simp at hx) (by omega)
  simp only [parse, StringScanner.from_list]
  rw [hmain]
  simp [tailCookies]

theorem round_trip_parse_emit_witness :
    ∃ out, emit_all [⟨"abc".toList, "123".toList⟩,
        ⟨"hello".toList, "world".toList⟩] = Except.ok out ∧
      parse out = some [⟨"abc".toList, "123".toList⟩,
        ⟨"hello".toList, "world".toList⟩] :=
  round_trip_parse_emit
    [⟨"abc".toList, "123".toList⟩, ⟨"hello".toList, "world".toList⟩]
    (by unfold validCookies; decide)

/-- C4 (amended): for headers made of recognisable pairs (token-character
names, cookie-octet values), inserting arbitrary tab/space runs before
any pair, before a final bare (no-`=`) segment, and after the final pair
when the last segment contains `=`, leaves the parsed name/value
contents unchanged — the decorated header parses to the same sequence as
the header with every inserted run removed.  (Whitespace between a value
and a following `;`, or after a final bare segment, is NOT transparent:
see the counterexample.) -/
theorem parse_ws_insensitive (dcs : List (List Char × UserAgentCookie))
    (t : DecoTail) (hvd : validDeco dcs) (hvt : validTail t) :
    parse (deco dcs t) = some (dcs.map (fun p => p.2) ++ tailCookies t) ∧
    parse (deco dcs t) =
      parse (deco (dcs.map (fun p => (([] : List Char), p.2)))
        (stripTail t)) := by
  have hmain := parse_loop_deco dcs t ((deco dcs t).length + 1) (deco dcs t)
    0 [] [] (by omega) (by simp) (by simp) hvd hvt (by omega)
  have h1 : parse (deco dcs t) =
      some (dcs.map (fun p => p.2) ++ tailCookies t) := by
    simp only [parse, StringScanner.from_list]
    rw [hmain]
    simp
  have hvd2 : validDeco (dcs.map (fun p => (([] : List Char), p.2))) := by
    intro p hp
    simp only [List.mem_map] at hp
    obtain ⟨q, hq, rfl⟩ := hp
    exact ⟨by simp, (hvd q hq).2.1, (hvd q hq).2.2⟩
  have hvt2 : validTail (stripTail t) := by
    cases t with
    | ws w2 => intro x hx; simp at hx
    | bare w2 b =>
      obtain ⟨_, h1, h2, h3⟩ := hvt
      exact ⟨by intro x hx; simp at hx, h1, h2, h3⟩
  have hmain2 := parse_loop_deco (dcs.map (fun p => (([] : List Char), p.2)))
    (stripTail t)
    ((deco (dcs.map (fun p => (([] : List Char), p.2))) (stripTail t)).length + 1)
    (deco (dcs.map (fun p => (([] : List Char), p.2))) (stripTail t))
    0 [] [] (by omega) (by simp) (by simp) hvd2 hvt2 (by omega)
  have h2 : parse (deco (dcs.map (fun p => (([] : List Char), p.2)))
      (stripTail t)) = some (dcs.map (fun p => p.2) ++ tailCookies t) := by
    simp only [parse, StringScanner.from_list]
    rw [hmain2]
    have htc : tailCookies (stripTail t) = tailCookies t := by
      cases t <;> rfl
    simp [htc, List.map_map]
  exact ⟨h1, h1.trans h2.symm⟩

end BasicCookies

namespace BasicCookies

theorem parse_ws_insensitive_witness :
    parse (deco [((" ".toList), ⟨"a".toList, "b".toList⟩)]
        (DecoTail.ws ("\x09".toList))) =
      some (([((" ".toList), (⟨"a".toList, "b".toList⟩ : UserAgentCookie))].map
        (fun p => p.2)) ++ tailCookies (DecoTail.ws ("\x09".toList))) ∧
    parse (deco [((" ".toList), ⟨"a".toList, "b".toList⟩)]
        (DecoTail.ws ("\x09".toList))) =
      parse (deco
        ([((" ".toList), (⟨"a".toList, "b".toList⟩ : UserAgentCookie))].map
          (fun p => (([] : List Char), p.2)))
        (stripTail (DecoTail.ws ("\x09".toList)))) :=
  parse_ws_insensitive [((" ".toList), ⟨"a".toList, "b".toList⟩)]
    (DecoTail.ws ("\x09".toList))
    (by unfold validDeco; decide)
    (by show ∀ x ∈ ("\x09".toList), IsWs x; decide)

end BasicCookies
